import Mathlib

/-!
# Hermitian rank-1 update `her` and Euclidean norm `nrm2`

A shallow embedding of the two generic kernels of `include/blas/her.hpp` and
`include/blas/nrm2.hpp`, together with theorems about them.

* Buffers are total maps `Nat → S` from a buffer index to the stored element; an
  in-place store is `Function.update`.
* `blas::size_t` values are natural numbers reduced modulo `SIZE_MOD = 2 ^ 64`
  after every arithmetic operation; `blas::int_t` values are integers that are
  converted to `size_t` by reduction modulo `SIZE_MOD`.
* The element types are abstract: the kernels only use the operations collected in
  `ScalarOps` (exact arithmetic, no rounding).  The template parameters `TA`, `TX`
  and their common `scalar_type` are identified with one type `S`; `real_type`
  is `K`.
-/

namespace Blas

/-! ## Declarations of `blas/utils.hpp` used by the kernels -/

/-- Modelled from the spec: the layout selector with its two valid values
`ColMajor` and `RowMajor` (the enumeration is declared in `blas/utils.hpp`);
`Unknown` stands for every other value of the underlying enumeration type. -/
inductive Layout where
  | ColMajor
  | RowMajor
  | Unknown
  deriving DecidableEq

/-- Modelled from the spec: the triangle selector with its two valid values
`Upper` and `Lower` (the enumeration is declared in `blas/utils.hpp`);
`Unknown` stands for every other value of the underlying enumeration type. -/
inductive Uplo where
  | Upper
  | Lower
  | Unknown
  deriving DecidableEq

/-- Modelled from the spec: the single error kind raised by argument validation. -/
inductive BlasError where
  | InvalidArgument
  deriving DecidableEq

/-- Modelled from the spec: `blas::size_t` (declared in `blas/utils.hpp`) is an
unsigned machine integer, taken here to be 64 bits wide; its arithmetic is
arithmetic modulo `SIZE_MOD`. The general lemmas below depend only on the
modulus being positive. -/
def SIZE_MOD : Nat := 2 ^ 64

/-- Conversion of a signed `blas::int_t` value to `blas::size_t`. -/
def sizeOfInt (z : Int) : Nat := (z % (SIZE_MOD : Int)).toNat

/-- Unary minus on `blas::size_t`. -/
def sizeNeg (a : Nat) : Nat := (SIZE_MOD - a % SIZE_MOD) % SIZE_MOD

/-- Addition on `blas::size_t`. -/
def sizeAdd (a b : Nat) : Nat := (a + b) % SIZE_MOD

/-- Multiplication on `blas::size_t`. -/
def sizeMul (a b : Nat) : Nat := (a * b) % SIZE_MOD

/-- Modelled from the spec: the elementary scalar operations the kernels call
(`conj`, `real`, `imag` of `blas/utils.hpp`), the conversion of a real value to
the element type, and the product of a real scalar with an element. `K` is the
real companion type of the element type `S`. -/
class ScalarOps (K : outParam Type) (S : Type) where
  /-- complex conjugate (identity for real types) -/
  conj : S → S
  /-- real part -/
  real : S → K
  /-- imaginary part (zero for real types) -/
  imag : S → K
  /-- conversion of a real value on assignment to an element -/
  ofReal : K → S
  /-- product `alpha * z` of a real scalar and an element -/
  scale : K → S → S

/-- Modelled from the spec: a complex element type over the real type `K`,
as a pair of a real and an imaginary part. -/
structure Cplx (K : Type) where
  re : K
  im : K
  deriving DecidableEq

instance instAddCplx {K : Type} [Add K] : Add (Cplx K) :=
  ⟨fun a b => ⟨a.re + b.re, a.im + b.im⟩⟩

instance instMulCplx {K : Type} [Add K] [Sub K] [Mul K] : Mul (Cplx K) :=
  ⟨fun a b => ⟨a.re * b.re - a.im * b.im, a.re * b.im + a.im * b.re⟩⟩

/-- Modelled from the spec: scalar operations of a complex element type. -/
instance instScalarOpsCplx {K : Type} [Zero K] [Neg K] [Mul K] : ScalarOps K (Cplx K) where
  conj z := ⟨z.re, -z.im⟩
  real z := z.re
  imag z := z.im
  ofReal r := ⟨r, 0⟩
  scale a z := ⟨a * z.re, a * z.im⟩

/-- Modelled from the spec: scalar operations of a real element type
(conjugation is the identity, the imaginary part is zero). -/
instance (priority := low) instScalarOpsReal {K : Type} [Zero K] [Mul K] : ScalarOps K K where
  conj z := z
  real z := z
  imag _ := 0
  ofReal r := r
  scale a z := a * z

/-- Modelled from the spec: `blas_error_if(cond)` of `blas/utils.hpp` raises
`InvalidArgument` when `cond` holds and otherwise continues with `k`; the
buffer `A` is handed back untouched when the error is raised. -/
def blas_error_if {S : Type} (cond : Bool) (A : Nat → S)
    (k : Except BlasError Unit × (Nat → S)) : Except BlasError Unit × (Nat → S) :=
  if cond then (Except.error BlasError.InvalidArgument, A) else k

/-! ## Loops -/

/-- The first `t` iterations of a counting loop whose counter starts at `lo`:
iteration `k` applies `body (lo + k)` to the loop state. -/
def loopN {σ : Type} (body : Nat → σ → σ) (lo : Nat) : Nat → σ → σ
  | 0, s => s
  | t + 1, s => body (lo + t) (loopN body lo t s)

/-- The loop `for (size_t i = lo; i < hi; ++i) body`. -/
def forLoop {σ : Type} (lo hi : Nat) (body : Nat → σ → σ) (s : σ) : σ :=
  loopN body lo (hi - lo) s

/-! ## `her` -/

/-- The macro `A(i_, j_)`, that is the buffer index `(i_) + (j_)*lda`. -/
def Aidx (lda i j : Nat) : Nat := sizeAdd i (sizeMul j lda)

section Her

variable {K S : Type} [ScalarOps K S] [Add S] [Mul S] [Add K]

open ScalarOps

/-- Upper triangle, unit stride (`her.hpp`, lines 97-104). -/
def herUpperUnit (n : Nat) (alpha : K) (x : Nat → S) (A : Nat → S) (lda : Nat) : Nat → S :=
  forLoop 0 n (fun j A =>
    let tmp : S := scale alpha (conj (x j))
    let A1 := forLoop 0 j (fun i B =>
      Function.update B (Aidx lda i j) (B (Aidx lda i j) + x i * tmp)) A
    Function.update A1 (Aidx lda j j)
      (ofReal (real (A1 (Aidx lda j j)) + real (x j * tmp)))) A

/-- Upper triangle, non-unit stride (`her.hpp`, lines 108-118); the loop state
is the buffer together with the running index `jx` (outer) or `ix` (inner). -/
def herUpperStrided (n : Nat) (alpha : K) (x : Nat → S) (incx : Int) (kx : Nat)
    (A : Nat → S) (lda : Nat) : Nat → S :=
  (forLoop 0 n (fun j (st : (Nat → S) × Nat) =>
    let jx := st.2
    let tmp : S := scale alpha (conj (x jx))
    let st1 := forLoop 0 j (fun i (s : (Nat → S) × Nat) =>
      (Function.update s.1 (Aidx lda i j) (s.1 (Aidx lda i j) + x s.2 * tmp),
        sizeAdd s.2 (sizeOfInt incx))) (st.1, kx)
    (Function.update st1.1 (Aidx lda j j)
        (ofReal (real (st1.1 (Aidx lda j j)) + real (x jx * tmp))),
      sizeAdd jx (sizeOfInt incx))) (A, kx)).1

/-- Lower triangle, unit stride (`her.hpp`, lines 125-131). -/
def herLowerUnit (n : Nat) (alpha : K) (x : Nat → S) (A : Nat → S) (lda : Nat) : Nat → S :=
  forLoop 0 n (fun j A =>
    let tmp : S := scale alpha (conj (x j))
    let A1 := Function.update A (Aidx lda j j)
      (ofReal (real (A (Aidx lda j j)) + real (tmp * x j)))
    forLoop (j + 1) n (fun i B =>
      Function.update B (Aidx lda i j) (B (Aidx lda i j) + x i * tmp)) A1) A

/-- Lower triangle, non-unit stride (`her.hpp`, lines 135-145). -/
def herLowerStrided (n : Nat) (alpha : K) (x : Nat → S) (incx : Int) (kx : Nat)
    (A : Nat → S) (lda : Nat) : Nat → S :=
  (forLoop 0 n (fun j (st : (Nat → S) × Nat) =>
    let jx := st.2
    let tmp : S := scale alpha (conj (x jx))
    let A1 := Function.update st.1 (Aidx lda j j)
      (ofReal (real (st.1 (Aidx lda j j)) + real (tmp * x jx)))
    let st1 := forLoop (j + 1) n (fun i (s : (Nat → S) × Nat) =>
      let ix := sizeAdd s.2 (sizeOfInt incx)
      (Function.update s.1 (Aidx lda i j) (s.1 (Aidx lda i j) + x ix * tmp), ix)) (A1, jx)
    (st1.1, sizeAdd jx (sizeOfInt incx))) (A, kx)).1

/-- The start offset `kx = (incx > 0 ? 0 : (-n + 1)*incx)`, computed in `size_t`. -/
def herKx (n : Nat) (incx : Int) : Nat :=
  if incx > 0 then 0 else sizeMul (sizeAdd (sizeNeg n) 1) (sizeOfInt incx)

/-- The function `blas::her`: the outcome of the call (normal return or
`InvalidArgument`) and the matrix buffer after it. The check `n < 0` of the
source can never fire for the unsigned `n`. -/
def her [Zero K] [DecidableEq K] (layout : Layout) (uplo : Uplo) (n : Nat) (alpha : K)
    (x : Nat → S) (incx : Int) (A : Nat → S) (lda : Nat) :
    Except BlasError Unit × (Nat → S) :=
  blas_error_if (layout != Layout.ColMajor && layout != Layout.RowMajor) A <|
  blas_error_if (uplo != Uplo.Lower && uplo != Uplo.Upper) A <|
  blas_error_if (decide (incx = 0)) A <|
  blas_error_if (decide (lda < n)) A <|
  if n = 0 ∨ alpha = 0 then (Except.ok (), A)
  else
    let uplo1 : Uplo :=
      if layout = Layout.RowMajor then
        (if uplo = Uplo.Lower then Uplo.Upper else Uplo.Lower)
      else uplo
    let kx := herKx n incx
    if uplo1 = Uplo.Upper then
      if incx = 1 then (Except.ok (), herUpperUnit n alpha x A lda)
      else (Except.ok (), herUpperStrided n alpha x incx kx A lda)
    else
      if incx = 1 then (Except.ok (), herLowerUnit n alpha x A lda)
      else (Except.ok (), herLowerStrided n alpha x incx kx A lda)

end Her

/-! ## `nrm2` -/

section Nrm2

variable {K S : Type} [ScalarOps K S] [Add K] [Mul K] [Zero K]

open ScalarOps

/-- The function `blas::nrm2`; the square root of the real type is the
parameter `sqrt`. -/
def nrm2 (sqrt : K → K) (n : Nat) (x : Nat → S) (incx : Int) : Except BlasError K :=
  if incx ≤ 0 then Except.error BlasError.InvalidArgument
  else
    let result : K := 0
    if incx = 1 then
      let result := forLoop 0 n (fun i (r : K) =>
        r + (real (x i) * real (x i) + imag (x i) * imag (x i))) result
      Except.ok (sqrt result)
    else
      let st := forLoop 0 n (fun _ (s : K × Nat) =>
        (s.1 + (real (x s.2) * real (x s.2) + imag (x s.2) * imag (x s.2)),
          sizeAdd s.2 (sizeOfInt incx))) (result, 0)
      Except.ok (sqrt st.1)

end Nrm2

/-! ## Vocabulary of the statements -/

/-- Buffer position of the logical vector element `k` of an `n`-element vector
with stride `incx`: `k*incx` for a positive stride, `(n-1-k)*|incx|` for a
negative one (the elements are used in reverse order). -/
def xidx (n : Nat) (incx : Int) (k : Nat) : Nat :=
  if incx > 0 then k * incx.natAbs else (n - 1 - k) * incx.natAbs

/-- Value of a running index (`ix`, `jx`) that started at `k0` after `t`
executions of `ix += incx`. -/
def runIdx (k0 : Nat) (incx : Int) : Nat → Nat
  | 0 => k0
  | t + 1 => sizeAdd (runIdx k0 incx t) (sizeOfInt incx)

/-- Storage slot of the logical matrix element `(r, c)`: `r + c*lda` for
column-major storage, `r*lda + c` for row-major storage. -/
def slot (layout : Layout) (lda r c : Nat) : Nat :=
  if layout = Layout.RowMajor then r * lda + c else r + c * lda

section Cells

variable {K S : Type} [ScalarOps K S] [Add S] [Mul S] [Add K]

open ScalarOps

/-- What column `j` of the upper-triangle sweep does to the content `v` of the
buffer cell `k`. -/
def upperCol (lda : Nat) (alpha : K) (x : Nat → S) (j k : Nat) (v : S) : S :=
  let tmp : S := scale alpha (conj (x j))
  let w := forLoop 0 j (fun i v => if k = Aidx lda i j then v + x i * tmp else v) v
  if k = Aidx lda j j then ofReal (real w + real (x j * tmp)) else w

/-- What column `j` of the lower-triangle sweep does to the content `v` of the
buffer cell `k`. -/
def lowerCol (lda n : Nat) (alpha : K) (x : Nat → S) (j k : Nat) (v : S) : S :=
  let tmp : S := scale alpha (conj (x j))
  let w := if k = Aidx lda j j then ofReal (real v + real (tmp * x j)) else v
  forLoop (j + 1) n (fun i v => if k = Aidx lda i j then v + x i * tmp else v) w

end Cells

/-- The triangle that the sweeps address in column-major terms: the requested
one for `ColMajor`, the opposite one for `RowMajor` (`her.hpp`, lines 88-91). -/
def effUplo (layout : Layout) (uplo : Uplo) : Uplo :=
  if layout = Layout.RowMajor then
    (if uplo = Uplo.Lower then Uplo.Upper else Uplo.Lower)
  else uplo

/-- Membership of the logical matrix element `(r, c)` in the triangle named by
`uplo`, diagonal included. -/
def inTriangle (uplo : Uplo) (r c : Nat) : Prop :=
  (uplo = Uplo.Upper ∧ r ≤ c) ∨ (uplo = Uplo.Lower ∧ c ≤ r)

instance instDecidableInTriangle (uplo : Uplo) (r c : Nat) : Decidable (inTriangle uplo r c) := by
  unfold inTriangle
  exact inferInstance

/-! ## Concrete data of the examples -/

/-- The vector `[1, i]` (every further buffer element is `i` as well). -/
def vecOneI : Nat → Cplx Int := fun k => if k = 0 then ⟨1, 0⟩ else ⟨0, 1⟩

/-- The all-zero complex matrix buffer. -/
def zeroBuf : Nat → Cplx Int := fun _ => ⟨0, 0⟩

/-- A buffer all of whose elements are the imaginary unit. -/
def imagBuf : Nat → Cplx Int := fun _ => ⟨0, 1⟩

/-- The triangle opposite to a valid triangle selector. -/
def oppositeUplo (uplo : Uplo) : Uplo :=
  match uplo with
  | Uplo.Upper => Uplo.Lower
  | Uplo.Lower => Uplo.Upper
  | Uplo.Unknown => Uplo.Unknown

/-- The vector buffer whose element `k` is `k + i`. -/
def vecRamp : Nat → Cplx Int := fun k => ⟨(k : Int), 1⟩

section Nrm2Traced

variable {K S : Type} [ScalarOps K S] [Add K] [Mul K] [Zero K]

open ScalarOps

/-- The function `blas::nrm2` together with the list of the buffer indices at
which it reads `x`, in program order (one entry per executed accumulation
statement). -/
def nrm2Traced (sqrt : K → K) (n : Nat) (x : Nat → S) (incx : Int) :
    Except BlasError K × List Nat :=
  if incx ≤ 0 then (Except.error BlasError.InvalidArgument, [])
  else
    let result : K := 0
    if incx = 1 then
      let st := forLoop 0 n (fun i (s : K × List Nat) =>
        (s.1 + (real (x i) * real (x i) + imag (x i) * imag (x i)), s.2 ++ [i])) (result, [])
      (Except.ok (sqrt st.1), st.2)
    else
      let st := forLoop 0 n (fun _ (s : (K × List Nat) × Nat) =>
        ((s.1.1 + (real (x s.2) * real (x s.2) + imag (x s.2) * imag (x s.2)),
            s.1.2 ++ [s.2]),
          sizeAdd s.2 (sizeOfInt incx))) ((result, []), 0)
      (Except.ok (sqrt st.1.1), st.1.2)

end Nrm2Traced

/-! ## A scalar model with NaN -/

/-- Modelled from the spec: real values extended with one NaN element, which every
arithmetic operation propagates (the model of the NaN behaviour of the
floating-point types the kernels are instantiated with). -/
inductive WithNaN (K : Type) where
  | nan : WithNaN K
  | num (v : K) : WithNaN K
  deriving DecidableEq

instance instZeroWithNaN {K : Type} [Zero K] : Zero (WithNaN K) := ⟨WithNaN.num 0⟩

instance instNegWithNaN {K : Type} [Neg K] : Neg (WithNaN K) :=
  ⟨fun a => match a with
    | WithNaN.num u => WithNaN.num (-u)
    | WithNaN.nan => WithNaN.nan⟩

instance instAddWithNaN {K : Type} [Add K] : Add (WithNaN K) :=
  ⟨fun a b => match a, b with
    | WithNaN.num u, WithNaN.num v => WithNaN.num (u + v)
    | _, _ => WithNaN.nan⟩

instance instSubWithNaN {K : Type} [Sub K] : Sub (WithNaN K) :=
  ⟨fun a b => match a, b with
    | WithNaN.num u, WithNaN.num v => WithNaN.num (u - v)
    | _, _ => WithNaN.nan⟩

instance instMulWithNaN {K : Type} [Mul K] : Mul (WithNaN K) :=
  ⟨fun a b => match a, b with
    | WithNaN.num u, WithNaN.num v => WithNaN.num (u * v)
    | _, _ => WithNaN.nan⟩

/-- A complex value is NaN when its real or its imaginary part is. -/
def cplxIsNaN {K : Type} (z : Cplx (WithNaN K)) : Prop :=
  z.re = WithNaN.nan ∨ z.im = WithNaN.nan

instance instDecidableCplxIsNaN {K : Type} [DecidableEq K] (z : Cplx (WithNaN K)) :
    Decidable (cplxIsNaN z) := by
  unfold cplxIsNaN
  exact inferInstance

/-- The vector `[0, NaN]` (every further buffer element is NaN as well). -/
def vecZeroNaN : Nat → Cplx (WithNaN Int) :=
  fun k => if k = 0 then ⟨WithNaN.num 0, WithNaN.num 0⟩ else ⟨WithNaN.nan, WithNaN.num 0⟩

/-- The all-zero matrix buffer of the NaN model. -/
def zeroBufNaN : Nat → Cplx (WithNaN Int) := fun _ => ⟨WithNaN.num 0, WithNaN.num 0⟩

/-- One access of `her` to the vector buffer `x` or to the matrix buffer `A`, with
the buffer index used. -/
inductive Access where
  | readX (i : Nat)
  | readA (i : Nat)
  | writeA (i : Nat)
  deriving DecidableEq

/-- Accesses of the statement `A(i, j) += x[ix] * tmp`, where `k` is the index
`A(i, j)` expands to. -/
def accUpdate (ix k : Nat) : List Access :=
  [Access.readX ix, Access.readA k, Access.writeA k]

/-- Accesses of the statement `A(j, j) = real( A(j, j) ) + real( x[jx] * tmp )`
(or `real( tmp * x[jx] )`), where `k` is the index `A(j, j)` expands to. -/
def accDiag (jx k : Nat) : List Access :=
  [Access.readA k, Access.readX jx, Access.writeA k]

/-- An access stays inside a vector array of `xlen` elements and a matrix array
of `alen` elements. -/
def Access.inBounds (xlen alen : Nat) : Access → Prop
  | Access.readX i => i < xlen
  | Access.readA i => i < alen
  | Access.writeA i => i < alen

section Traced

variable {K S : Type} [ScalarOps K S] [Add S] [Mul S] [Add K]

open ScalarOps

/-- Upper triangle, unit stride (`her.hpp`, lines 97-104), with the accesses
appended to a log in program order. -/
def herUpperUnitT (n : Nat) (alpha : K) (x : Nat → S) (A : Nat → S) (lda : Nat) :
    (Nat → S) × List Access :=
  forLoop 0 n (fun j (st : (Nat → S) × List Access) =>
    let tmp : S := scale alpha (conj (x j))
    let st1 := forLoop 0 j (fun i (s : (Nat → S) × List Access) =>
      (Function.update s.1 (Aidx lda i j) (s.1 (Aidx lda i j) + x i * tmp),
        s.2 ++ accUpdate i (Aidx lda i j))) (st.1, st.2 ++ [Access.readX j])
    (Function.update st1.1 (Aidx lda j j)
        (ofReal (real (st1.1 (Aidx lda j j)) + real (x j * tmp))),
      st1.2 ++ accDiag j (Aidx lda j j))) (A, [])

/-- Upper triangle, non-unit stride (`her.hpp`, lines 108-118), with the accesses
appended to a log in program order. -/
def herUpperStridedT (n : Nat) (alpha : K) (x : Nat → S) (incx : Int) (kx : Nat)
    (A : Nat → S) (lda : Nat) : (Nat → S) × List Access :=
  (forLoop 0 n (fun j (st : ((Nat → S) × List Access) × Nat) =>
    let jx := st.2
    let tmp : S := scale alpha (conj (x jx))
    let st1 := forLoop 0 j (fun i (s : ((Nat → S) × List Access) × Nat) =>
      ((Function.update s.1.1 (Aidx lda i j) (s.1.1 (Aidx lda i j) + x s.2 * tmp),
          s.1.2 ++ accUpdate s.2 (Aidx lda i j)),
        sizeAdd s.2 (sizeOfInt incx))) ((st.1.1, st.1.2 ++ [Access.readX jx]), kx)
    ((Function.update st1.1.1 (Aidx lda j j)
          (ofReal (real (st1.1.1 (Aidx lda j j)) + real (x jx * tmp))),
        st1.1.2 ++ accDiag jx (Aidx lda j j)),
      sizeAdd jx (sizeOfInt incx))) ((A, []), kx)).1

/-- Lower triangle, unit stride (`her.hpp`, lines 125-131), with the accesses
appended to a log in program order. -/
def herLowerUnitT (n : Nat) (alpha : K) (x : Nat → S) (A : Nat → S) (lda : Nat) :
    (Nat → S) × List Access :=
  forLoop 0 n (fun j (st : (Nat → S) × List Access) =>
    let tmp : S := scale alpha (conj (x j))
    let st0 : (Nat → S) × List Access :=
      (Function.update st.1 (Aidx lda j j)
          (ofReal (real (st.1 (Aidx lda j j)) + real (tmp * x j))),
        st.2 ++ [Access.readX j] ++ accDiag j (Aidx lda j j))
    forLoop (j + 1) n (fun i (s : (Nat → S) × List Access) =>
      (Function.update s.1 (Aidx lda i j) (s.1 (Aidx lda i j) + x i * tmp),
        s.2 ++ accUpdate i (Aidx lda i j))) st0) (A, [])

/-- Lower triangle, non-unit stride (`her.hpp`, lines 135-145), with the accesses
appended to a log in program order. -/
def herLowerStridedT (n : Nat) (alpha : K) (x : Nat → S) (incx : Int) (kx : Nat)
    (A : Nat → S) (lda : Nat) : (Nat → S) × List Access :=
  (forLoop 0 n (fun j (st : ((Nat → S) × List Access) × Nat) =>
    let jx := st.2
    let tmp : S := scale alpha (conj (x jx))
    let st0 : (Nat → S) × List Access :=
      (Function.update st.1.1 (Aidx lda j j)
          (ofReal (real (st.1.1 (Aidx lda j j)) + real (tmp * x jx))),
        st.1.2 ++ [Access.readX jx] ++ accDiag jx (Aidx lda j j))
    let st1 := forLoop (j + 1) n (fun i (s : ((Nat → S) × List Access) × Nat) =>
      let ix := sizeAdd s.2 (sizeOfInt incx)
      ((Function.update s.1.1 (Aidx lda i j) (s.1.1 (Aidx lda i j) + x ix * tmp),
          s.1.2 ++ accUpdate ix (Aidx lda i j)), ix)) (st0, jx)
    (st1.1, sizeAdd jx (sizeOfInt incx))) ((A, []), kx)).1

/-- The function `blas::her` with the record of its accesses: the outcome of the
call, the matrix buffer after it, and the accesses in program order. -/
def herTraced [Zero K] [DecidableEq K] (layout : Layout) (uplo : Uplo) (n : Nat) (alpha : K)
    (x : Nat → S) (incx : Int) (A : Nat → S) (lda : Nat) :
    Except BlasError Unit × ((Nat → S) × List Access) :=
  if (layout != Layout.ColMajor && layout != Layout.RowMajor) then
    (Except.error BlasError.InvalidArgument, (A, []))
  else if (uplo != Uplo.Lower && uplo != Uplo.Upper) then
    (Except.error BlasError.InvalidArgument, (A, []))
  else if incx = 0 then (Except.error BlasError.InvalidArgument, (A, []))
  else if lda < n then (Except.error BlasError.InvalidArgument, (A, []))
  else if n = 0 ∨ alpha = 0 then (Except.ok (), (A, []))
  else
    let uplo1 : Uplo :=
      if layout = Layout.RowMajor then
        (if uplo = Uplo.Lower then Uplo.Upper else Uplo.Lower)
      else uplo
    let kx := herKx n incx
    if uplo1 = Uplo.Upper then
      if incx = 1 then (Except.ok (), herUpperUnitT n alpha x A lda)
      else (Except.ok (), herUpperStridedT n alpha x incx kx A lda)
    else
      if incx = 1 then (Except.ok (), herLowerUnitT n alpha x A lda)
      else (Except.ok (), herLowerStridedT n alpha x incx kx A lda)

/-- The upper sweep that reads the vector element `k` at the buffer position
`pos k`, with its accesses. -/
def upperSweepT (pos : Nat → Nat) (n : Nat) (alpha : K) (x : Nat → S) (A : Nat → S)
    (lda : Nat) : (Nat → S) × List Access :=
  forLoop 0 n (fun j (st : (Nat → S) × List Access) =>
    let tmp : S := scale alpha (conj (x (pos j)))
    let st1 := forLoop 0 j (fun i (s : (Nat → S) × List Access) =>
      (Function.update s.1 (Aidx lda i j) (s.1 (Aidx lda i j) + x (pos i) * tmp),
        s.2 ++ accUpdate (pos i) (Aidx lda i j))) (st.1, st.2 ++ [Access.readX (pos j)])
    (Function.update st1.1 (Aidx lda j j)
        (ofReal (real (st1.1 (Aidx lda j j)) + real (x (pos j) * tmp))),
      st1.2 ++ accDiag (pos j) (Aidx lda j j))) (A, [])

/-- The lower sweep that reads the vector element `k` at the buffer position
`pos k`, with its accesses. -/
def lowerSweepT (pos : Nat → Nat) (n : Nat) (alpha : K) (x : Nat → S) (A : Nat → S)
    (lda : Nat) : (Nat → S) × List Access :=
  forLoop 0 n (fun j (st : (Nat → S) × List Access) =>
    let tmp : S := scale alpha (conj (x (pos j)))
    let st0 : (Nat → S) × List Access :=
      (Function.update st.1 (Aidx lda j j)
          (ofReal (real (st.1 (Aidx lda j j)) + real (tmp * x (pos j)))),
        st.2 ++ [Access.readX (pos j)] ++ accDiag (pos j) (Aidx lda j j))
    forLoop (j + 1) n (fun i (s : (Nat → S) × List Access) =>
      (Function.update s.1 (Aidx lda i j) (s.1 (Aidx lda i j) + x (pos i) * tmp),
        s.2 ++ accUpdate (pos i) (Aidx lda i j))) st0) (A, [])

end Traced

/-- The accesses that a sweep over `n` columns with vector positions `pos` may
make: reads of `x` at a position `pos k`, `k < n`, and accesses of `A` at an
index `A(r, c)` with `r, c < n`. -/
def Access.ofSweep (pos : Nat → Nat) (n lda : Nat) : Access → Prop
  | Access.readX i => ∃ k, k < n ∧ i = pos k
  | Access.readA i => ∃ r c, r < n ∧ c < n ∧ i = Aidx lda r c
  | Access.writeA i => ∃ r c, r < n ∧ c < n ∧ i = Aidx lda r c

/-! ## A scalar model with rounding -/

/-- The least number `e` of low bits, counted from `e0` and at most `fuel` more,
that must be dropped from `m` to leave at most 53 significant bits. -/
def dropCount (m : Nat) : Nat → Nat → Nat
  | 0, e0 => e0
  | fuel + 1, e0 => if m / 2 ^ e0 < 2 ^ 53 then e0 else dropCount m fuel (e0 + 1)

/-- Rounding of an integer to the nearest integer with at most 53 significant
bits, ties to the even significand: the rounding of IEEE binary64 arithmetic on
integer values (no overflow is modelled, the exponent range is that of
binary64). -/
def roundBin64 (z : Int) : Int :=
  let m := z.natAbs
  if m < 2 ^ 53 then z
  else
    let e := dropCount m 1024 0
    let q := m / 2 ^ e
    let r := m % 2 ^ e
    let h := 2 ^ (e - 1)
    let q1 := if h < r ∨ (r = h ∧ q % 2 = 1) then q + 1 else q
    if z < 0 then -((q1 * 2 ^ e : Nat) : Int) else ((q1 * 2 ^ e : Nat) : Int)

/-- Modelled from the spec: a floating-point real type, restricted to integer
values: every sum, difference and product is the exact result rounded by
`roundBin64` (the element types the kernels are instantiated with round their
arithmetic). -/
structure Bin64 where
  val : Int
  deriving DecidableEq

instance instZeroBin64 : Zero Bin64 := ⟨⟨0⟩⟩

instance instNegBin64 : Neg Bin64 := ⟨fun a => ⟨-a.val⟩⟩

instance instAddBin64 : Add Bin64 := ⟨fun a b => ⟨roundBin64 (a.val + b.val)⟩⟩

instance instSubBin64 : Sub Bin64 := ⟨fun a b => ⟨roundBin64 (a.val - b.val)⟩⟩

instance instMulBin64 : Mul Bin64 := ⟨fun a b => ⟨roundBin64 (a.val * b.val)⟩⟩

theorem SIZE_MOD_pos : 0 < SIZE_MOD := by decide

theorem sizeAdd_lt (a b : Nat) : sizeAdd a b < SIZE_MOD :=
  Nat.mod_lt _ SIZE_MOD_pos

theorem sizeMul_lt (a b : Nat) : sizeMul a b < SIZE_MOD :=
  Nat.mod_lt _ SIZE_MOD_pos

theorem sizeOfInt_cast (z : Int) : ((sizeOfInt z : Nat) : Int) = z % (SIZE_MOD : Int) := by
  unfold sizeOfInt
  exact Int.toNat_of_nonneg (Int.emod_nonneg _ (by decide))

theorem sizeOfInt_lt (z : Int) : sizeOfInt z < SIZE_MOD := by
  have h := sizeOfInt_cast z
  have h2 : z % (SIZE_MOD : Int) < (SIZE_MOD : Int) := Int.emod_lt_of_pos _ (by decide)
  omega

theorem sizeOfInt_modEq (z : Int) : ((sizeOfInt z : Nat) : Int) ≡ z [ZMOD (SIZE_MOD : Int)] := by
  rw [sizeOfInt_cast]
  exact Int.mod_modEq _ _

theorem sizeAdd_modEq (a b : Nat) :
    ((sizeAdd a b : Nat) : Int) ≡ (a : Int) + b [ZMOD (SIZE_MOD : Int)] := by
  unfold sizeAdd
  push_cast
  exact Int.mod_modEq _ _

theorem sizeMul_modEq (a b : Nat) :
    ((sizeMul a b : Nat) : Int) ≡ (a : Int) * b [ZMOD (SIZE_MOD : Int)] := by
  unfold sizeMul
  push_cast
  exact Int.mod_modEq _ _

theorem sizeNeg_modEq (a : Nat) :
    ((sizeNeg a : Nat) : Int) ≡ -(a : Int) [ZMOD (SIZE_MOD : Int)] := by
  unfold sizeNeg
  have h1 : a % SIZE_MOD < SIZE_MOD := Nat.mod_lt _ SIZE_MOD_pos
  push_cast [Nat.cast_sub h1.le]
  refine (Int.mod_modEq _ _).trans ?_
  have h2 : ((a : Int) % (SIZE_MOD : Int)) ≡ a [ZMOD (SIZE_MOD : Int)] := Int.mod_modEq _ _
  have h3 : ((SIZE_MOD : Int) - (a : Int) % (SIZE_MOD : Int)) ≡ (SIZE_MOD : Int) - a
      [ZMOD (SIZE_MOD : Int)] := Int.ModEq.sub_left _ h2
  refine h3.trans ?_
  rw [Int.modEq_iff_dvd]
  exact ⟨-1, by ring⟩

/-- Two `size_t` values that are congruent modulo `SIZE_MOD` are equal. -/
theorem eq_of_modEq_of_lt {a b : Nat} (ha : a < SIZE_MOD) (hb : b < SIZE_MOD)
    (h : (a : Int) ≡ (b : Int) [ZMOD (SIZE_MOD : Int)]) : a = b := by
  have h1 : (a : Int) % (SIZE_MOD : Int) = (b : Int) % (SIZE_MOD : Int) := h
  rw [Int.emod_eq_of_lt (by omega) (by exact_mod_cast ha),
    Int.emod_eq_of_lt (by omega) (by exact_mod_cast hb)] at h1
  exact_mod_cast h1

theorem Aidx_eq (lda i j : Nat) (h : i + j * lda < SIZE_MOD) : Aidx lda i j = i + j * lda := by
  unfold Aidx sizeAdd sizeMul
  have h1 : j * lda < SIZE_MOD := by omega
  rw [Nat.mod_eq_of_lt h1, Nat.mod_eq_of_lt h]

theorem idx_lt {lda n i j : Nat} (hi : i < lda) (hj : j < n) : i + j * lda < lda * n := by
  have h1 : (j + 1) * lda ≤ n * lda := Nat.mul_le_mul_right lda hj
  have h2 : (j + 1) * lda = j * lda + lda := by ring
  have h3 : n * lda = lda * n := Nat.mul_comm _ _
  omega

theorem idx_inj {lda i j i2 j2 : Nat} (hi : i < lda) (hi2 : i2 < lda)
    (h : i + j * lda = i2 + j2 * lda) : i = i2 ∧ j = j2 := by
  have hpos : 0 < lda := by omega
  have hm : (i + j * lda) % lda = (i2 + j2 * lda) % lda := by rw [h]
  have hd : (i + j * lda) / lda = (i2 + j2 * lda) / lda := by rw [h]
  rw [Nat.add_mul_mod_self_right, Nat.add_mul_mod_self_right, Nat.mod_eq_of_lt hi,
    Nat.mod_eq_of_lt hi2] at hm
  rw [Nat.add_mul_div_right _ _ hpos, Nat.add_mul_div_right _ _ hpos,
    Nat.div_eq_of_lt hi, Nat.div_eq_of_lt hi2] at hd
  omega

theorem runIdx_lt (k0 : Nat) (incx : Int) (t : Nat) (h0 : k0 < SIZE_MOD) :
    runIdx k0 incx t < SIZE_MOD := by
  cases t with
  | zero => exact h0
  | succ t => exact sizeAdd_lt _ _

theorem runIdx_modEq (k0 : Nat) (incx : Int) (t : Nat) :
    ((runIdx k0 incx t : Nat) : Int) ≡ (k0 : Int) + t * incx [ZMOD (SIZE_MOD : Int)] := by
  induction t with
  | zero => simp [runIdx]
  | succ t ih =>
    have h1 := sizeAdd_modEq (runIdx k0 incx t) (sizeOfInt incx)
    have h2 := Int.ModEq.add ih (sizeOfInt_modEq incx)
    have h3 : (k0 : Int) + t * incx + incx = (k0 : Int) + ((t + 1 : Nat) : Int) * incx := by
      push_cast
      ring
    rw [h3] at h2
    exact h1.trans h2

theorem herKx_lt (n : Nat) (incx : Int) : herKx n incx < SIZE_MOD := by
  unfold herKx
  split
  · exact SIZE_MOD_pos
  · exact sizeMul_lt _ _

theorem herKx_modEq (n : Nat) (incx : Int) (h : ¬ incx > 0) :
    ((herKx n incx : Nat) : Int) ≡ (-(n : Int) + 1) * incx [ZMOD (SIZE_MOD : Int)] := by
  unfold herKx
  rw [if_neg h]
  refine (sizeMul_modEq _ _).trans ?_
  refine Int.ModEq.mul ?_ (sizeOfInt_modEq incx)
  refine (sizeAdd_modEq _ _).trans ?_
  exact Int.ModEq.add (sizeNeg_modEq n) (Int.ModEq.refl _)

/-- The running index of the strided loops visits the buffer positions of the
logical vector elements, for positive and for negative strides. -/
theorem runIdx_herKx (n : Nat) (incx : Int) (t : Nat) (ht : t < n)
    (hx : (n - 1) * incx.natAbs < SIZE_MOD) :
    runIdx (herKx n incx) incx t = xidx n incx t := by
  have hbound : xidx n incx t < SIZE_MOD := by
    unfold xidx
    split
    · exact lt_of_le_of_lt (Nat.mul_le_mul_right _ (by omega)) hx
    · exact lt_of_le_of_lt (Nat.mul_le_mul_right _ (by omega)) hx
  refine eq_of_modEq_of_lt (runIdx_lt _ _ _ (herKx_lt n incx)) hbound ?_
  refine (runIdx_modEq _ _ _).trans ?_
  by_cases hpos : incx > 0
  · have hk : herKx n incx = 0 := by unfold herKx; rw [if_pos hpos]
    rw [hk]
    unfold xidx
    rw [if_pos hpos]
    push_cast
    rw [abs_of_pos hpos, zero_add]
  · have h1 := Int.ModEq.add_right ((t : Int) * incx) (herKx_modEq n incx hpos)
    refine h1.trans ?_
    unfold xidx
    rw [if_neg hpos]
    have hsub : ((n - 1 - t : Nat) : Int) = (n : Int) - 1 - t := by omega
    push_cast
    rw [abs_of_nonpos (by omega), hsub]
    have : (-(n : Int) + 1) * incx + (t : Int) * incx = ((n : Int) - 1 - t) * -incx := by ring
    rw [this]

/-! ## Loops -/

theorem loopN_congr {σ : Type} (f g : Nat → σ → σ) (lo t : Nat) (a : σ)
    (h : ∀ s, s < t → ∀ b, f (lo + s) b = g (lo + s) b) :
    loopN f lo t a = loopN g lo t a := by
  induction t with
  | zero => rfl
  | succ t ih =>
    simp only [loopN]
    rw [ih (fun s hs b => h s (by omega) b)]
    exact h t (by omega) _

theorem loopN_no_hit {σ : Type} (f : Nat → σ → σ) (lo t : Nat) (a : σ)
    (h : ∀ s, s < t → ∀ b, f (lo + s) b = b) : loopN f lo t a = a := by
  induction t with
  | zero => rfl
  | succ t ih =>
    simp only [loopN]
    rw [ih (fun s hs b => h s (by omega) b)]
    exact h t (by omega) _

theorem loopN_unique_hit {σ : Type} (f : Nat → σ → σ) (lo t s : Nat) (a : σ) (hs : s < t)
    (h : ∀ r, r < t → r ≠ s → ∀ b, f (lo + r) b = b) : loopN f lo t a = f (lo + s) a := by
  induction t with
  | zero => omega
  | succ t ih =>
    simp only [loopN]
    by_cases hst : s = t
    · subst hst
      rw [loopN_no_hit f lo s a (fun r hr b => h r (by omega) (by omega) b)]
    · rw [ih (by omega) (fun r hr hrs b => h r (by omega) hrs b)]
      exact h t (by omega) (fun e => hst e.symm) _

/-- A loop whose body transforms every buffer cell by a function of that cell
alone acts on each cell separately. -/
theorem loopN_pointwise {S : Type} (F : Nat → (Nat → S) → (Nat → S)) (φ : Nat → Nat → S → S)
    (hF : ∀ i B k, F i B k = φ i k (B k)) (lo t : Nat) (B : Nat → S) (k : Nat) :
    loopN F lo t B k = loopN (fun i v => φ i k v) lo t (B k) := by
  induction t with
  | zero => rfl
  | succ t ih =>
    simp only [loopN]
    rw [hF, ih]

/-- A loop that carries a running index next to its state is the loop over the
state alone in which the running index is replaced by its value `runIdx`. -/
theorem loopN_with_index {σ : Type} (G : Nat → Nat → σ → σ) (k0 : Nat) (incx : Int)
    (lo t base : Nat) (a : σ) :
    loopN (fun i (s : σ × Nat) => (G i s.2 s.1, sizeAdd s.2 (sizeOfInt incx))) lo t
        (a, runIdx k0 incx base)
      = (loopN (fun i a => G i (runIdx k0 incx (base + (i - lo))) a) lo t a,
          runIdx k0 incx (base + t)) := by
  induction t with
  | zero => rfl
  | succ t ih =>
    simp only [loopN]
    rw [ih]
    simp [runIdx, Nat.add_assoc]

/-! ## The strided sweeps are the unit-stride sweeps over the visited elements -/

section Sweeps

variable {K S : Type} [ScalarOps K S] [Add S] [Mul S] [Add K]

open ScalarOps

theorem herUpperStrided_eq (n : Nat) (alpha : K) (x : Nat → S) (incx : Int) (kx : Nat)
    (A : Nat → S) (lda : Nat) :
    herUpperStrided n alpha x incx kx A lda
      = herUpperUnit n alpha (fun i => x (runIdx kx incx i)) A lda := by
  unfold herUpperStrided herUpperUnit forLoop
  have hin : ∀ (j : Nat) (tmp : S) (B : Nat → S),
      loopN (fun i (s : (Nat → S) × Nat) =>
          (Function.update s.1 (Aidx lda i j) (s.1 (Aidx lda i j) + x s.2 * tmp),
            sizeAdd s.2 (sizeOfInt incx))) 0 (j - 0) (B, kx)
        = (loopN (fun i B => Function.update B (Aidx lda i j)
              (B (Aidx lda i j) + x (runIdx kx incx i) * tmp)) 0 (j - 0) B,
            runIdx kx incx (j - 0)) := by
    intro j tmp B
    have h := loopN_with_index (fun i ix (B : Nat → S) =>
      Function.update B (Aidx lda i j) (B (Aidx lda i j) + x ix * tmp)) kx incx 0 (j - 0) 0 B
    simpa [runIdx] using h
  simp only [hin]
  have hout := loopN_with_index (fun j jx (B : Nat → S) =>
    Function.update
      (loopN (fun i B => Function.update B (Aidx lda i j)
        (B (Aidx lda i j) + x (runIdx kx incx i) * scale alpha (conj (x jx)))) 0 (j - 0) B)
      (Aidx lda j j)
      (ofReal (real (loopN (fun i B => Function.update B (Aidx lda i j)
        (B (Aidx lda i j) + x (runIdx kx incx i) * scale alpha (conj (x jx)))) 0 (j - 0) B
          (Aidx lda j j)) + real (x jx * scale alpha (conj (x jx))))))
    kx incx 0 (n - 0) 0 A
  simp only [runIdx, Nat.zero_add, Nat.sub_zero] at hout ⊢
  rw [hout]

theorem herLowerStrided_eq (n : Nat) (alpha : K) (x : Nat → S) (incx : Int) (kx : Nat)
    (A : Nat → S) (lda : Nat) :
    herLowerStrided n alpha x incx kx A lda
      = herLowerUnit n alpha (fun i => x (runIdx kx incx i)) A lda := by
  unfold herLowerStrided herLowerUnit forLoop
  have hin : ∀ (j : Nat) (tmp : S) (B : Nat → S),
      (loopN (fun i (s : (Nat → S) × Nat) =>
          (Function.update s.1 (Aidx lda i j)
              (s.1 (Aidx lda i j) + x (sizeAdd s.2 (sizeOfInt incx)) * tmp),
            sizeAdd s.2 (sizeOfInt incx))) (j + 1) (n - (j + 1)) (B, runIdx kx incx j)).1
        = loopN (fun i B => Function.update B (Aidx lda i j)
              (B (Aidx lda i j) + x (runIdx kx incx i) * tmp)) (j + 1) (n - (j + 1)) B := by
    intro j tmp B
    have h := loopN_with_index (fun i ix (B : Nat → S) =>
      Function.update B (Aidx lda i j)
        (B (Aidx lda i j) + x (sizeAdd ix (sizeOfInt incx)) * tmp)) kx incx (j + 1)
      (n - (j + 1)) j B
    rw [h]
    refine loopN_congr _ _ _ _ _ ?_
    intro s _ b
    have e : j + (j + 1 + s - (j + 1)) + 1 = j + 1 + s := by omega
    show Function.update b _ (b _ + x (runIdx kx incx (j + (j + 1 + s - (j + 1)) + 1)) * tmp) = _
    rw [e]
  have hout := loopN_with_index (fun j jx (B : Nat → S) =>
    (loopN (fun i (s : (Nat → S) × Nat) =>
          (Function.update s.1 (Aidx lda i j)
              (s.1 (Aidx lda i j)
                + x (sizeAdd s.2 (sizeOfInt incx)) * scale alpha (conj (x jx))),
            sizeAdd s.2 (sizeOfInt incx))) (j + 1) (n - (j + 1))
      (Function.update B (Aidx lda j j)
        (ofReal (real (B (Aidx lda j j)) + real (scale alpha (conj (x jx)) * x jx))),
        jx)).1)
    kx incx 0 (n - 0) 0 A
  simp only [runIdx, Nat.zero_add, Nat.sub_zero] at hout ⊢
  rw [hout]
  simp only [hin]

/-! ## Cell-wise description of the sweeps -/

theorem update_self_apply {S : Type} (B : Nat → S) (p : Nat) (g : S → S) (k : Nat) :
    Function.update B p (g (B p)) k = if k = p then g (B k) else B k := by
  by_cases h : k = p
  · subst h
    simp
  · simp [Function.update_noteq h, h]

theorem colLoop_apply {S : Type} [Add S] [Mul S] (lda j : Nat) (x : Nat → S) (tmp : S)
    (lo t : Nat) (B : Nat → S) (k : Nat) :
    loopN (fun i B => Function.update B (Aidx lda i j) (B (Aidx lda i j) + x i * tmp)) lo t B k
      = loopN (fun i v => if k = Aidx lda i j then v + x i * tmp else v) lo t (B k) :=
  loopN_pointwise _ (fun i k v => if k = Aidx lda i j then v + x i * tmp else v)
    (fun i B k => update_self_apply B (Aidx lda i j) (fun v => v + x i * tmp) k) lo t B k

theorem herUpperUnit_apply (n : Nat) (alpha : K) (x : Nat → S) (A : Nat → S) (lda k : Nat) :
    herUpperUnit n alpha x A lda k
      = forLoop 0 n (fun j v => upperCol lda alpha x j k v) (A k) := by
  unfold herUpperUnit forLoop
  refine loopN_pointwise _ (fun j k v => upperCol lda alpha x j k v) ?_ 0 (n - 0) A k
  intro j B k
  unfold upperCol forLoop
  simp only
  rw [update_self_apply _ (Aidx lda j j)
    (fun v => ofReal (real v + real (x j * scale alpha (conj (x j)))))]
  simp only [colLoop_apply]

theorem herLowerUnit_apply (n : Nat) (alpha : K) (x : Nat → S) (A : Nat → S) (lda k : Nat) :
    herLowerUnit n alpha x A lda k
      = forLoop 0 n (fun j v => lowerCol lda n alpha x j k v) (A k) := by
  unfold herLowerUnit forLoop
  refine loopN_pointwise _ (fun j k v => lowerCol lda n alpha x j k v) ?_ 0 (n - 0) A k
  intro j B k
  unfold lowerCol forLoop
  simp only
  rw [colLoop_apply, update_self_apply _ (Aidx lda j j)
    (fun v => ofReal (real v + real (scale alpha (conj (x j)) * x j)))]

/-! ## One column of a sweep -/

theorem upperCol_of_ne (lda : Nat) (alpha : K) (x : Nat → S) (j k : Nat) (v : S)
    (h : ∀ i, i ≤ j → k ≠ Aidx lda i j) : upperCol lda alpha x j k v = v := by
  unfold upperCol forLoop
  simp only
  rw [if_neg (h j le_rfl)]
  refine loopN_no_hit _ _ _ _ ?_
  intro s hs b
  exact if_neg (h (0 + s) (by omega))

theorem upperCol_offdiag (lda : Nat) (alpha : K) (x : Nat → S) (i j : Nat) (v : S)
    (hij : i < j) (h : ∀ r, r ≤ j → r ≠ i → Aidx lda i j ≠ Aidx lda r j) :
    upperCol lda alpha x j (Aidx lda i j) v = v + x i * scale alpha (conj (x j)) := by
  unfold upperCol forLoop
  simp only
  rw [if_neg (h j le_rfl (by omega))]
  rw [loopN_unique_hit _ 0 (j - 0) i v (by omega)
    (fun r hr hri b => if_neg (h (0 + r) (by omega) (by omega)))]
  simp

theorem upperCol_diag (lda : Nat) (alpha : K) (x : Nat → S) (j : Nat) (v : S)
    (h : ∀ r, r < j → Aidx lda j j ≠ Aidx lda r j) :
    upperCol lda alpha x j (Aidx lda j j) v
      = ofReal (real v + real (x j * scale alpha (conj (x j)))) := by
  unfold upperCol forLoop
  simp only
  rw [if_pos trivial, loopN_no_hit _ 0 (j - 0) v
    (fun r hr b => if_neg (h (0 + r) (by omega)))]

theorem lowerCol_of_ne (lda n : Nat) (alpha : K) (x : Nat → S) (j k : Nat) (v : S)
    (h : ∀ i, j ≤ i → i < n → k ≠ Aidx lda i j) (hj : j < n) :
    lowerCol lda n alpha x j k v = v := by
  unfold lowerCol forLoop
  simp only
  rw [if_neg (h j le_rfl hj)]
  refine loopN_no_hit _ _ _ _ ?_
  intro s hs b
  exact if_neg (h (j + 1 + s) (by omega) (by omega))

theorem lowerCol_offdiag (lda n : Nat) (alpha : K) (x : Nat → S) (i j : Nat) (v : S)
    (hji : j < i) (hi : i < n)
    (h : ∀ r, j ≤ r → r < n → r ≠ i → Aidx lda i j ≠ Aidx lda r j) :
    lowerCol lda n alpha x j (Aidx lda i j) v = v + x i * scale alpha (conj (x j)) := by
  unfold lowerCol forLoop
  simp only
  rw [if_neg (h j le_rfl (by omega) (by omega))]
  rw [loopN_unique_hit _ (j + 1) (n - (j + 1)) (i - (j + 1)) v (by omega)
    (fun r hr hri b => if_neg (h (j + 1 + r) (by omega) (by omega) (by omega)))]
  have e : j + 1 + (i - (j + 1)) = i := by omega
  simp [e]

theorem lowerCol_diag (lda n : Nat) (alpha : K) (x : Nat → S) (j : Nat) (v : S)
    (h : ∀ r, j < r → r < n → Aidx lda j j ≠ Aidx lda r j) :
    lowerCol lda n alpha x j (Aidx lda j j) v
      = ofReal (real v + real (scale alpha (conj (x j)) * x j)) := by
  unfold lowerCol forLoop
  simp only
  rw [if_pos trivial]
  exact loopN_no_hit _ _ _ _ (fun r hr b => if_neg (h (j + 1 + r) (by omega) (by omega)))

/-! ## The unit-stride sweeps, entry by entry -/

theorem Aidx_eq_of_valid {lda n i j : Nat} (hlda : n ≤ lda) (hA : lda * n < SIZE_MOD)
    (hi : i < n) (hj : j < n) : Aidx lda i j = i + j * lda :=
  Aidx_eq lda i j (lt_trans (idx_lt (lt_of_lt_of_le hi hlda) hj) hA)

theorem Aidx_inj_of_valid {lda n i j i2 j2 : Nat} (hlda : n ≤ lda) (hA : lda * n < SIZE_MOD)
    (hi : i < n) (hj : j < n) (hi2 : i2 < n) (hj2 : j2 < n)
    (h : Aidx lda i j = Aidx lda i2 j2) : i = i2 ∧ j = j2 := by
  rw [Aidx_eq_of_valid hlda hA hi hj, Aidx_eq_of_valid hlda hA hi2 hj2] at h
  exact idx_inj (lt_of_lt_of_le hi hlda) (lt_of_lt_of_le hi2 hlda) h

theorem herUpperUnit_offdiag (n : Nat) (alpha : K) (x : Nat → S) (A : Nat → S) (lda : Nat)
    (hlda : n ≤ lda) (hA : lda * n < SIZE_MOD) (i j : Nat) (hij : i < j) (hj : j < n) :
    herUpperUnit n alpha x A lda (i + j * lda)
      = A (i + j * lda) + x i * scale alpha (conj (x j)) := by
  have hi : i < n := by omega
  rw [herUpperUnit_apply, ← Aidx_eq_of_valid hlda hA hi hj]
  unfold forLoop
  rw [loopN_unique_hit _ 0 (n - 0) j _ (by omega)]
  · simp only [Nat.zero_add]
    refine upperCol_offdiag lda alpha x i j _ hij ?_
    intro r hr hri e
    exact hri (Aidx_inj_of_valid hlda hA hi hj (by omega) hj e).1.symm
  · intro r hr hrj b
    refine upperCol_of_ne lda alpha x _ _ b ?_
    intro i2 hi2 e
    exact hrj (by
      have := (Aidx_inj_of_valid hlda hA hi hj (by omega) (by omega) e).2
      omega)

theorem herUpperUnit_diag (n : Nat) (alpha : K) (x : Nat → S) (A : Nat → S) (lda : Nat)
    (hlda : n ≤ lda) (hA : lda * n < SIZE_MOD) (j : Nat) (hj : j < n) :
    herUpperUnit n alpha x A lda (j + j * lda)
      = ofReal (real (A (j + j * lda)) + real (x j * scale alpha (conj (x j)))) := by
  rw [herUpperUnit_apply, ← Aidx_eq_of_valid hlda hA hj hj]
  unfold forLoop
  rw [loopN_unique_hit _ 0 (n - 0) j _ (by omega)]
  · simp only [Nat.zero_add]
    refine upperCol_diag lda alpha x j _ ?_
    intro r hr e
    have := (Aidx_inj_of_valid hlda hA hj hj (by omega) hj e).1
    omega
  · intro r hr hrj b
    refine upperCol_of_ne lda alpha x _ _ b ?_
    intro i2 hi2 e
    exact hrj (by
      have := (Aidx_inj_of_valid hlda hA hj hj (by omega) (by omega) e).2
      omega)

theorem herUpperUnit_other (n : Nat) (alpha : K) (x : Nat → S) (A : Nat → S) (lda : Nat)
    (hlda : n ≤ lda) (hA : lda * n < SIZE_MOD) (k : Nat)
    (h : ∀ i j, i ≤ j → j < n → k ≠ i + j * lda) :
    herUpperUnit n alpha x A lda k = A k := by
  rw [herUpperUnit_apply]
  unfold forLoop
  refine loopN_no_hit _ _ _ _ ?_
  intro r hr b
  refine upperCol_of_ne lda alpha x _ _ b ?_
  intro i hi e
  rw [Aidx_eq_of_valid hlda hA (by omega) (by omega)] at e
  exact h i (0 + r) hi (by omega) e

theorem herLowerUnit_offdiag (n : Nat) (alpha : K) (x : Nat → S) (A : Nat → S) (lda : Nat)
    (hlda : n ≤ lda) (hA : lda * n < SIZE_MOD) (i j : Nat) (hji : j < i) (hi : i < n) :
    herLowerUnit n alpha x A lda (i + j * lda)
      = A (i + j * lda) + x i * scale alpha (conj (x j)) := by
  have hj : j < n := by omega
  rw [herLowerUnit_apply, ← Aidx_eq_of_valid hlda hA hi hj]
  unfold forLoop
  rw [loopN_unique_hit _ 0 (n - 0) j _ (by omega)]
  · simp only [Nat.zero_add]
    refine lowerCol_offdiag lda n alpha x i j _ hji hi ?_
    intro r _ hr hri e
    exact hri (Aidx_inj_of_valid hlda hA hi hj hr hj e).1.symm
  · intro r hr hrj b
    refine lowerCol_of_ne lda n alpha x _ _ b ?_ (by omega)
    intro i2 _ hi2 e
    exact hrj (by
      have := (Aidx_inj_of_valid hlda hA hi hj hi2 (by omega) e).2
      omega)

theorem herLowerUnit_diag (n : Nat) (alpha : K) (x : Nat → S) (A : Nat → S) (lda : Nat)
    (hlda : n ≤ lda) (hA : lda * n < SIZE_MOD) (j : Nat) (hj : j < n) :
    herLowerUnit n alpha x A lda (j + j * lda)
      = ofReal (real (A (j + j * lda)) + real (scale alpha (conj (x j)) * x j)) := by
  rw [herLowerUnit_apply, ← Aidx_eq_of_valid hlda hA hj hj]
  unfold forLoop
  rw [loopN_unique_hit _ 0 (n - 0) j _ (by omega)]
  · simp only [Nat.zero_add]
    refine lowerCol_diag lda n alpha x j _ ?_
    intro r hr hrn e
    have := (Aidx_inj_of_valid hlda hA hj hj hrn hj e).1
    omega
  · intro r hr hrj b
    refine lowerCol_of_ne lda n alpha x _ _ b ?_ (by omega)
    intro i2 _ hi2 e
    exact hrj (by
      have := (Aidx_inj_of_valid hlda hA hj hj hi2 (by omega) e).2
      omega)

theorem herLowerUnit_other (n : Nat) (alpha : K) (x : Nat → S) (A : Nat → S) (lda : Nat)
    (hlda : n ≤ lda) (hA : lda * n < SIZE_MOD) (k : Nat)
    (h : ∀ i j, j ≤ i → i < n → k ≠ i + j * lda) :
    herLowerUnit n alpha x A lda k = A k := by
  rw [herLowerUnit_apply]
  unfold forLoop
  refine loopN_no_hit _ _ _ _ ?_
  intro r hr b
  refine lowerCol_of_ne lda n alpha x _ _ b ?_ (by omega)
  intro i hji hi e
  rw [Aidx_eq_of_valid hlda hA hi (by omega)] at e
  exact h i (0 + r) hji hi e

/-! ## The sweeps only use the first `n` vector elements -/

theorem herUpperUnit_congr (n : Nat) (alpha : K) (x y : Nat → S) (A : Nat → S) (lda : Nat)
    (h : ∀ i, i < n → x i = y i) :
    herUpperUnit n alpha x A lda = herUpperUnit n alpha y A lda := by
  funext k
  rw [herUpperUnit_apply, herUpperUnit_apply]
  unfold forLoop
  refine loopN_congr _ _ _ _ _ ?_
  intro s hs b
  unfold upperCol forLoop
  simp only
  rw [h (0 + s) (by omega)]
  have hin := loopN_congr
    (fun i v => if k = Aidx lda i (0 + s) then v + x i * scale alpha (conj (y (0 + s))) else v)
    (fun i v => if k = Aidx lda i (0 + s) then v + y i * scale alpha (conj (y (0 + s))) else v)
    0 (0 + s - 0) b (fun r hr c => by
      show (if _ then c + x (0 + r) * _ else c) = (if _ then c + y (0 + r) * _ else c)
      rw [h (0 + r) (by omega)])
  rw [hin]

theorem herLowerUnit_congr (n : Nat) (alpha : K) (x y : Nat → S) (A : Nat → S) (lda : Nat)
    (h : ∀ i, i < n → x i = y i) :
    herLowerUnit n alpha x A lda = herLowerUnit n alpha y A lda := by
  funext k
  rw [herLowerUnit_apply, herLowerUnit_apply]
  unfold forLoop
  refine loopN_congr _ _ _ _ _ ?_
  intro s hs b
  unfold lowerCol forLoop
  simp only
  rw [h (0 + s) (by omega)]
  refine loopN_congr _ _ _ _ _ ?_
  intro r hr c
  show (if _ then c + x (0 + s + 1 + r) * _ else c) = (if _ then c + y (0 + s + 1 + r) * _ else c)
  rw [h (0 + s + 1 + r) (by omega)]

end Sweeps

/-! ## The whole call -/

section Call

variable {K S : Type} [ScalarOps K S] [Add S] [Mul S] [Add K] [Zero K] [DecidableEq K]

open ScalarOps

/-- On arguments that fail validation the call raises `InvalidArgument` and hands
the buffer back as it was. -/
theorem her_invalid (layout : Layout) (uplo : Uplo) (n : Nat) (alpha : K) (x : Nat → S)
    (incx : Int) (A : Nat → S) (lda : Nat)
    (h : layout = Layout.Unknown ∨ uplo = Uplo.Unknown ∨ incx = 0 ∨ lda < n) :
    her layout uplo n alpha x incx A lda = (Except.error BlasError.InvalidArgument, A) := by
  unfold her blas_error_if
  cases layout <;> cases uplo <;> simp at h ⊢ <;>
    (intro h1 h2; rcases h with h | h <;> omega)

/-- The quick return. -/
theorem her_quick (layout : Layout) (uplo : Uplo) (n : Nat) (alpha : K) (x : Nat → S)
    (incx : Int) (A : Nat → S) (lda : Nat) (hl : layout ≠ Layout.Unknown)
    (hu : uplo ≠ Uplo.Unknown) (hinc : incx ≠ 0) (hlda : n ≤ lda)
    (h : n = 0 ∨ alpha = 0) :
    her layout uplo n alpha x incx A lda = (Except.ok (), A) := by
  unfold her blas_error_if
  have h1 : ¬ lda < n := by omega
  cases layout <;> cases uplo <;> simp [hinc, h1, h] at hl hu ⊢

/-- On valid arguments outside the quick return, the call runs the unit-stride
sweep of the effective triangle over the logical vector. -/
theorem her_eq_of_valid (layout : Layout) (uplo : Uplo) (n : Nat) (alpha : K) (x : Nat → S)
    (incx : Int) (A : Nat → S) (lda : Nat) (hl : layout ≠ Layout.Unknown)
    (hu : uplo ≠ Uplo.Unknown) (hn : n ≠ 0) (ha : alpha ≠ 0) (hinc : incx ≠ 0)
    (hlda : n ≤ lda) (hx : (n - 1) * incx.natAbs < SIZE_MOD) :
    her layout uplo n alpha x incx A lda
      = (Except.ok (),
          if effUplo layout uplo = Uplo.Upper then
            herUpperUnit n alpha (fun i => x (xidx n incx i)) A lda
          else herLowerUnit n alpha (fun i => x (xidx n incx i)) A lda) := by
  have h1 : ¬ lda < n := by omega
  have hU : herUpperUnit n alpha (fun i => x (xidx n incx i)) A lda
      = if incx = 1 then herUpperUnit n alpha x A lda
        else herUpperStrided n alpha x incx (herKx n incx) A lda := by
    split
    · rename_i h
      subst h
      simp [xidx]
    · rw [herUpperStrided_eq]
      exact herUpperUnit_congr n alpha _ _ A lda
        (fun i hi => by rw [runIdx_herKx n incx i hi hx])
  have hL : herLowerUnit n alpha (fun i => x (xidx n incx i)) A lda
      = if incx = 1 then herLowerUnit n alpha x A lda
        else herLowerStrided n alpha x incx (herKx n incx) A lda := by
    split
    · rename_i h
      subst h
      simp [xidx]
    · rw [herLowerStrided_eq]
      exact herLowerUnit_congr n alpha _ _ A lda
        (fun i hi => by rw [runIdx_herKx n incx i hi hx])
  rw [hU, hL]
  unfold her blas_error_if effUplo
  cases layout <;> cases uplo <;> simp [hinc, h1, hn, ha] at hl hu ⊢ <;> split <;> rfl

/-- The content of a cell after the call is determined by the content of that
same cell before the call (and by the other arguments). -/
theorem her_cell_congr (layout : Layout) (uplo : Uplo) (n : Nat) (alpha : K) (x : Nat → S)
    (incx : Int) (A B : Nat → S) (lda k : Nat) (h : A k = B k) :
    (her layout uplo n alpha x incx A lda).2 k = (her layout uplo n alpha x incx B lda).2 k := by
  unfold her blas_error_if
  simp only [herUpperStrided_eq, herLowerStrided_eq]
  repeat' split
  all_goals dsimp only
  all_goals first
    | exact h
    | (rw [herUpperUnit_apply, herUpperUnit_apply, h])
    | (rw [herLowerUnit_apply, herLowerUnit_apply, h])

end Call


/-! ## Statements about `her` -/

section HerStatements

variable {K S : Type} [ScalarOps K S] [Add S] [Mul S] [Add K] [Zero K] [DecidableEq K]

open ScalarOps

/-- C1: for `n ≥ 1`, `alpha ≠ 0`, `incx ≠ 0`, `lda ≥ n` (the two arrays being
addressable with `size_t` indices), `her(ColMajor, Upper, ...)` returns normally
and leaves every strictly upper entry `A[i + j*lda]`, `i < j < n`, equal to its old
value plus `xl[i] * (alpha * conj(xl[j]))`, and every diagonal entry `A[j + j*lda]`
equal to `real(old A[j + j*lda]) + real(xl[j] * (alpha * conj(xl[j])))`, where
`xl[k] = x[xidx n incx k]` is the logical vector element. -/
theorem her_colmajor_upper_update (n : Nat) (alpha : K) (x : Nat → S) (incx : Int)
    (A : Nat → S) (lda : Nat) (hn : 1 ≤ n) (ha : alpha ≠ 0) (hinc : incx ≠ 0)
    (hlda : n ≤ lda) (hA : lda * n < SIZE_MOD) (hx : (n - 1) * incx.natAbs < SIZE_MOD) :
    ∃ A1 : Nat → S,
      her Layout.ColMajor Uplo.Upper n alpha x incx A lda = (Except.ok (), A1) ∧
      (∀ i j, i < j → j < n →
        A1 (i + j * lda)
          = A (i + j * lda) + x (xidx n incx i) * scale alpha (conj (x (xidx n incx j)))) ∧
      (∀ j, j < n →
        A1 (j + j * lda)
          = ofReal (real (A (j + j * lda))
              + real (x (xidx n incx j) * scale alpha (conj (x (xidx n incx j)))))) := by
  refine ⟨_, her_eq_of_valid Layout.ColMajor Uplo.Upper n alpha x incx A lda (by decide)
    (by decide) (by omega) ha hinc hlda hx, ?_, ?_⟩
  · intro i j hij hj
    simp only [effUplo, if_true, reduceCtorEq, if_false]
    exact herUpperUnit_offdiag n alpha _ A lda hlda hA i j hij hj
  · intro j hj
    simp only [effUplo, if_true, reduceCtorEq, if_false]
    exact herUpperUnit_diag n alpha _ A lda hlda hA j hj

/-- C2: for `n ≥ 1`, `alpha ≠ 0`, `incx ≠ 0`, `lda ≥ n` (the two arrays being
addressable with `size_t` indices), `her(ColMajor, Lower, ...)` returns normally
and leaves every strictly lower entry `A[i + j*lda]`, `j < i < n`, equal to its old
value plus `xl[i] * (alpha * conj(xl[j]))`, and every diagonal entry `A[j + j*lda]`
equal to `real(old A[j + j*lda]) + real((alpha * conj(xl[j])) * xl[j])`. -/
theorem her_colmajor_lower_update (n : Nat) (alpha : K) (x : Nat → S) (incx : Int)
    (A : Nat → S) (lda : Nat) (hn : 1 ≤ n) (ha : alpha ≠ 0) (hinc : incx ≠ 0)
    (hlda : n ≤ lda) (hA : lda * n < SIZE_MOD) (hx : (n - 1) * incx.natAbs < SIZE_MOD) :
    ∃ A1 : Nat → S,
      her Layout.ColMajor Uplo.Lower n alpha x incx A lda = (Except.ok (), A1) ∧
      (∀ i j, j < i → i < n →
        A1 (i + j * lda)
          = A (i + j * lda) + x (xidx n incx i) * scale alpha (conj (x (xidx n incx j)))) ∧
      (∀ j, j < n →
        A1 (j + j * lda)
          = ofReal (real (A (j + j * lda))
              + real (scale alpha (conj (x (xidx n incx j))) * x (xidx n incx j)))) := by
  refine ⟨_, her_eq_of_valid Layout.ColMajor Uplo.Lower n alpha x incx A lda (by decide)
    (by decide) (by omega) ha hinc hlda hx, ?_, ?_⟩
  · intro i j hji hi
    simp only [effUplo, if_true, reduceCtorEq, if_false]
    exact herLowerUnit_offdiag n alpha _ A lda hlda hA i j hji hi
  · intro j hj
    simp only [effUplo, if_true, reduceCtorEq, if_false]
    exact herLowerUnit_diag n alpha _ A lda hlda hA j hj

end HerStatements

/-- Witness of C1: `n = 2`, `alpha = 1`, `x = [1, i]`, zero matrix, `lda = 2`:
the buffer after the call is `[1, 0, -i, 1]`. -/
theorem her_colmajor_upper_update_witness :
    ∃ A1 : Nat → Cplx Int,
      her Layout.ColMajor Uplo.Upper 2 (1 : Int) vecOneI 1 zeroBuf 2 = (Except.ok (), A1) ∧
      A1 0 = ⟨1, 0⟩ ∧ A1 1 = ⟨0, 0⟩ ∧ A1 2 = ⟨0, -1⟩ ∧ A1 3 = ⟨1, 0⟩ := by
  obtain ⟨A1, h, hoff, hdiag⟩ := her_colmajor_upper_update 2 (1 : Int) vecOneI 1 zeroBuf 2
    (by decide) (by decide) (by decide) (by decide) (by decide) (by decide)
  refine ⟨A1, h, ?_, ?_, ?_, ?_⟩
  · exact (hdiag 0 (by decide)).trans (by decide)
  · have e : A1 = (her Layout.ColMajor Uplo.Upper 2 (1 : Int) vecOneI 1 zeroBuf 2).2 := by
      rw [h]
    rw [e]
    decide
  · exact (hoff 0 1 (by decide) (by decide)).trans (by decide)
  · exact (hdiag 1 (by decide)).trans (by decide)

/-- Witness of C2: `n = 2`, `alpha = 1`, `x = [1, i]`, zero matrix, `lda = 2`:
the buffer after the call is `[1, i, 0, 1]`. -/
theorem her_colmajor_lower_update_witness :
    ∃ A1 : Nat → Cplx Int,
      her Layout.ColMajor Uplo.Lower 2 (1 : Int) vecOneI 1 zeroBuf 2 = (Except.ok (), A1) ∧
      A1 0 = ⟨1, 0⟩ ∧ A1 1 = ⟨0, 1⟩ ∧ A1 3 = ⟨1, 0⟩ := by
  obtain ⟨A1, h, hoff, hdiag⟩ := her_colmajor_lower_update 2 (1 : Int) vecOneI 1 zeroBuf 2
    (by decide) (by decide) (by decide) (by decide) (by decide) (by decide)
  refine ⟨A1, h, ?_, ?_, ?_⟩
  · exact (hdiag 0 (by decide)).trans (by decide)
  · exact (hoff 1 0 (by decide) (by decide)).trans (by decide)
  · exact (hdiag 1 (by decide)).trans (by decide)

/-- C3 (the code departs from it): with `RowMajor`, `Upper`, `n = 2`, `alpha = 1`,
`x = [1, i]`, zero matrix and `lda = 2`, the call returns normally and the entry
`(0, 1)` of the requested triangle, stored at `A[0*lda + 1]`, ends as `i`, whereas
its old value plus `alpha * xl[0] * conj(xl[1])` is `-i`. -/
theorem her_rowmajor_offdiag_conjugated :
    (her Layout.RowMajor Uplo.Upper 2 (1 : Int) vecOneI 1 zeroBuf 2).1 = Except.ok () ∧
    (her Layout.RowMajor Uplo.Upper 2 (1 : Int) vecOneI 1 zeroBuf 2).2
        (slot Layout.RowMajor 2 0 1) = ⟨0, 1⟩ ∧
    zeroBuf (slot Layout.RowMajor 2 0 1)
        + ScalarOps.scale (1 : Int)
            (vecOneI (xidx 2 1 0) * ScalarOps.conj (vecOneI (xidx 2 1 1))) = ⟨0, -1⟩ := by
  refine ⟨rfl, ?_, ?_⟩ <;> decide

section HerFrame

variable {K S : Type} [ScalarOps K S] [Add S] [Mul S] [Add K] [Zero K] [DecidableEq K]

open ScalarOps

/-- C5: for a valid layout and triangle selector, `incx ≠ 0` and `lda ≥ n`, if
`n = 0` or `alpha = 0` the call returns without error and the buffer `A` after the
call is the buffer before the call, whatever it contains. -/
theorem her_quick_return_unchanged (layout : Layout) (uplo : Uplo) (n : Nat) (alpha : K)
    (x : Nat → S) (incx : Int) (A : Nat → S) (lda : Nat) (hl : layout ≠ Layout.Unknown)
    (hu : uplo ≠ Uplo.Unknown) (hinc : incx ≠ 0) (hlda : n ≤ lda)
    (h : n = 0 ∨ alpha = 0) :
    her layout uplo n alpha x incx A lda = (Except.ok (), A) :=
  her_quick layout uplo n alpha x incx A lda hl hu hinc hlda h

/-- C6 as amended: for valid arguments (valid layout and triangle selector,
`incx ≠ 0`, `lda ≥ n`, addressable arrays) with `alpha ≠ 0`, after the call every
diagonal element `A[j + j*lda]`, `j < n`, has imaginary part zero, whatever `A`
contained; the element type is any one whose conversion from a real value
yields imaginary part zero. -/
theorem her_diag_imag_zero (himag : ∀ r : K, imag (ofReal r : S) = 0)
    (layout : Layout) (uplo : Uplo) (n : Nat) (alpha : K)
    (x : Nat → S) (incx : Int) (A : Nat → S) (lda : Nat) (hl : layout ≠ Layout.Unknown)
    (hu : uplo ≠ Uplo.Unknown) (ha : alpha ≠ 0) (hinc : incx ≠ 0) (hlda : n ≤ lda)
    (hA : lda * n < SIZE_MOD) (hx : (n - 1) * incx.natAbs < SIZE_MOD) :
    ∃ A1 : Nat → S,
      her layout uplo n alpha x incx A lda = (Except.ok (), A1) ∧
      ∀ j, j < n → imag (A1 (j + j * lda)) = 0 := by
  by_cases hn : n = 0
  · exact ⟨A, her_quick layout uplo n alpha x incx A lda hl hu hinc hlda (Or.inl hn),
      fun j hj => by omega⟩
  · refine ⟨_, her_eq_of_valid layout uplo n alpha x incx A lda hl hu hn ha hinc hlda hx, ?_⟩
    intro j hj
    split
    · rw [herUpperUnit_diag n alpha _ A lda hlda hA j hj]
      exact himag _
    · rw [herLowerUnit_diag n alpha _ A lda hlda hA j hj]
      exact himag _

/-- C7: for valid arguments (valid layout and triangle selector, `incx ≠ 0`,
`lda ≥ n`, addressable arrays), every buffer position that is not the storage
slot of an element of the requested triangle (diagonal included) holds after the
call the value it held before, and the values that the call leaves in the slots
of the requested triangle are the same for any two initial buffers that agree on
those slots. -/
theorem her_triangle_exclusive (layout : Layout) (uplo : Uplo) (n : Nat) (alpha : K)
    (x : Nat → S) (incx : Int) (lda : Nat) (hl : layout ≠ Layout.Unknown)
    (hu : uplo ≠ Uplo.Unknown) (hinc : incx ≠ 0) (hlda : n ≤ lda)
    (hA : lda * n < SIZE_MOD) (hx : (n - 1) * incx.natAbs < SIZE_MOD) :
    (∀ (A : Nat → S) (k : Nat),
      (∀ r c, r < n → c < n → inTriangle uplo r c → k ≠ slot layout lda r c) →
        (her layout uplo n alpha x incx A lda).2 k = A k) ∧
    (∀ (A B : Nat → S),
      (∀ r c, r < n → c < n → inTriangle uplo r c →
        A (slot layout lda r c) = B (slot layout lda r c)) →
      ∀ r c, r < n → c < n → inTriangle uplo r c →
        (her layout uplo n alpha x incx A lda).2 (slot layout lda r c)
          = (her layout uplo n alpha x incx B lda).2 (slot layout lda r c)) := by
  constructor
  · intro A k h
    by_cases hq : n = 0 ∨ alpha = 0
    · rw [her_quick layout uplo n alpha x incx A lda hl hu hinc hlda hq]
    · rw [her_eq_of_valid layout uplo n alpha x incx A lda hl hu (fun e => hq (Or.inl e))
        (fun e => hq (Or.inr e)) hinc hlda hx]
      cases layout <;> cases uplo <;> simp [effUplo] at hl hu ⊢
      · refine herUpperUnit_other n alpha _ A lda hlda hA k ?_
        intro i j hij hj
        have := h i j (by omega) hj (Or.inl ⟨rfl, hij⟩)
        simpa [slot] using this
      · refine herLowerUnit_other n alpha _ A lda hlda hA k ?_
        intro i j hji hi
        have := h i j hi (by omega) (Or.inr ⟨rfl, hji⟩)
        simpa [slot] using this
      · refine herLowerUnit_other n alpha _ A lda hlda hA k ?_
        intro i j hji hi
        have := h j i (by omega) hi (Or.inl ⟨rfl, hji⟩)
        simpa [slot, Nat.add_comm] using this
      · refine herUpperUnit_other n alpha _ A lda hlda hA k ?_
        intro i j hij hj
        have := h j i hj (by omega) (Or.inr ⟨rfl, hij⟩)
        simpa [slot, Nat.add_comm] using this
  · intro A B h r c hr hc ht
    exact her_cell_congr layout uplo n alpha x incx A B lda _ (h r c hr hc ht)

/-- C8: whenever `incx = 0` or `lda < n`, or the layout or the triangle selector
is not one of its two valid values, the call fails with `InvalidArgument`, for
every value of the other arguments, and the buffer `A` is the one before the
call. -/
theorem her_invalid_argument (layout : Layout) (uplo : Uplo) (n : Nat) (alpha : K)
    (x : Nat → S) (incx : Int) (A : Nat → S) (lda : Nat)
    (h : incx = 0 ∨ lda < n ∨ layout = Layout.Unknown ∨ uplo = Uplo.Unknown) :
    her layout uplo n alpha x incx A lda = (Except.error BlasError.InvalidArgument, A) :=
  her_invalid layout uplo n alpha x incx A lda (by tauto)

end HerFrame

/-- Witness of C5: `alpha = 0`, `n = 1`, a diagonal entry with stored imaginary
part `1`. -/
theorem her_quick_return_unchanged_witness :
    her Layout.ColMajor Uplo.Upper 1 (0 : Int) vecOneI 1 imagBuf 1 = (Except.ok (), imagBuf) :=
  her_quick_return_unchanged Layout.ColMajor Uplo.Upper 1 (0 : Int) vecOneI 1 imagBuf 1
    (by decide) (by decide) (by decide) (by decide) (Or.inr rfl)

/-- C6 fails as stated: with `ColMajor`, `Upper`, `n = 1`, `alpha = 0`, `incx = 1`,
`lda = 1` and the diagonal entry `A[0] = i`, the call returns normally and the
diagonal entry still has imaginary part `1`. -/
theorem her_diag_imag_alpha_zero :
    (her Layout.ColMajor Uplo.Upper 1 (0 : Int) vecOneI 1 imagBuf 1).1 = Except.ok () ∧
    ScalarOps.imag
      ((her Layout.ColMajor Uplo.Upper 1 (0 : Int) vecOneI 1 imagBuf 1).2 (0 + 0 * 1)) = 1 ∧
    (1 : Int) ≠ 0 := by
  refine ⟨rfl, ?_, ?_⟩ <;> decide

/-- Witness of C6 as amended: `RowMajor`, `Lower`, `n = 2`, `alpha = 1`,
`x = [1, i]` read backwards, a buffer full of `i`, `lda = 3`. -/
theorem her_diag_imag_zero_witness :
    ∃ A1 : Nat → Cplx Int,
      her Layout.RowMajor Uplo.Lower 2 (1 : Int) vecOneI (-1) imagBuf 3 = (Except.ok (), A1) ∧
      ∀ j, j < 2 → ScalarOps.imag (A1 (j + j * 3)) = 0 :=
  her_diag_imag_zero (fun _ => rfl) Layout.RowMajor Uplo.Lower 2 (1 : Int) vecOneI (-1)
    imagBuf 3 (by decide) (by decide) (by decide) (by decide) (by decide) (by decide)
    (by decide)

/-- Witness of C7: `RowMajor`, `Upper`, `n = 2`, `lda = 3`, stride `-1`: the slot
of the element `(1, 0)` of the opposite triangle and the padding slot `2` keep
their values. -/
theorem her_triangle_exclusive_witness :
    (her Layout.RowMajor Uplo.Upper 2 (1 : Int) vecOneI (-1) imagBuf 3).2
        (slot Layout.RowMajor 3 1 0) = imagBuf (slot Layout.RowMajor 3 1 0) ∧
    (her Layout.RowMajor Uplo.Upper 2 (1 : Int) vecOneI (-1) imagBuf 3).2 2 = imagBuf 2 := by
  have h := (her_triangle_exclusive Layout.RowMajor Uplo.Upper 2 (1 : Int) vecOneI (-1) 3
    (by decide) (by decide) (by decide) (by decide) (by decide) (by decide)).1 imagBuf
  constructor
  · refine h _ ?_
    intro r c hr hc ht
    interval_cases r <;> interval_cases c <;> simp [slot, inTriangle] at ht ⊢
  · refine h _ ?_
    intro r c hr hc ht
    interval_cases r <;> interval_cases c <;> simp [slot, inTriangle] at ht ⊢

/-- Witness of C8: `incx = 0` together with `n = 0` and `alpha = 0`. -/
theorem her_invalid_argument_witness :
    her Layout.ColMajor Uplo.Upper 0 (0 : Int) vecOneI 0 imagBuf 1
      = (Except.error BlasError.InvalidArgument, imagBuf) :=
  her_invalid_argument Layout.ColMajor Uplo.Upper 0 (0 : Int) vecOneI 0 imagBuf 1 (Or.inl rfl)

/-- C9 (the code departs from it): with `n = 0` and `lda = 0`, which violates
`lda ≥ max(1, n)`, the call returns normally instead of failing. -/
theorem her_zero_lda_returns :
    ¬ (max 1 0 ≤ 0) ∧
    her Layout.ColMajor Uplo.Upper 0 (1 : Int) vecOneI 1 zeroBuf 0 = (Except.ok (), zeroBuf) := by
  refine ⟨by decide, ?_⟩
  exact her_quick Layout.ColMajor Uplo.Upper 0 (1 : Int) vecOneI 1 zeroBuf 0
    (by decide) (by decide) (by decide) (by decide) (Or.inl rfl)

/-! ## Statements about `nrm2` -/

theorem loopN_add_sum {K : Type} [AddCommMonoid K] (g : Nat → K) (t : Nat) (a : K) :
    loopN (fun i r => r + g i) 0 t a = a + ∑ i in Finset.range t, g i := by
  induction t with
  | zero => simp [loopN]
  | succ t ih =>
    simp only [loopN, Nat.zero_add]
    rw [ih, Finset.sum_range_succ, add_assoc]

section Nrm2Statements

open ScalarOps

/-- The accumulated value of `nrm2` on a positive stride is the sum of the squared
moduli of the logical elements. -/
theorem nrm2_eq_sqrt_sum {K S : Type} [Semiring K] [ScalarOps K S] (sqrt : K → K) (n : Nat)
    (x : Nat → S) (incx : Int) (hinc : 0 < incx) (hx : (n - 1) * incx.toNat < SIZE_MOD) :
    nrm2 sqrt n x incx
      = Except.ok (sqrt (∑ i in Finset.range n,
          (real (x (i * incx.toNat)) * real (x (i * incx.toNat))
            + imag (x (i * incx.toNat)) * imag (x (i * incx.toNat))))) := by
  unfold nrm2 forLoop
  rw [if_neg (by omega)]
  by_cases h1 : incx = 1
  · subst h1
    simp only [if_true]
    rw [loopN_add_sum (fun i => real (x i) * real (x i) + imag (x i) * imag (x i))]
    simp
  · simp only [if_neg h1]
    have hrun : ∀ i, i < n → runIdx 0 incx i = i * incx.toNat := by
      intro i hi
      have hnat : incx.natAbs = incx.toNat := by omega
      have h := runIdx_herKx n incx i hi (by rw [hnat]; exact hx)
      have hk : herKx n incx = 0 := by unfold herKx; rw [if_pos hinc]
      rw [hk] at h
      rw [h]
      unfold xidx
      rw [if_pos hinc, hnat]
    have h := loopN_with_index (fun _ ix (r : K) =>
      r + (real (x ix) * real (x ix) + imag (x ix) * imag (x ix))) 0 incx 0 (n - 0) 0 (0 : K)
    simp only [runIdx, Nat.zero_add, Nat.sub_zero] at h ⊢
    rw [h]
    simp only
    rw [loopN_congr _ (fun i (r : K) => r + (real (x (i * incx.toNat)) * real (x (i * incx.toNat))
      + imag (x (i * incx.toNat)) * imag (x (i * incx.toNat)))) 0 n 0
      (fun s hs b => by
        simp only [Nat.zero_add]
        rw [hrun s hs])]
    rw [loopN_add_sum (fun i => real (x (i * incx.toNat)) * real (x (i * incx.toNat))
      + imag (x (i * incx.toNat)) * imag (x (i * incx.toNat)))]
    simp

/-- C4: for `n ≥ 0`, a stride `incx > 0` (the array being addressable with `size_t`
indices) and a square root that meets its contract on the real type, `nrm2`
returns the square root of the sum over `i < n` of
`real(x[i*incx])^2 + imag(x[i*incx])^2`, that is a non-negative `r` whose square
is that sum. -/
theorem nrm2_sqrt_sum {K S : Type} [LinearOrderedRing K] [ScalarOps K S] (sqrt : K → K)
    (hsqrt : ∀ a : K, 0 ≤ a → 0 ≤ sqrt a ∧ sqrt a * sqrt a = a) (n : Nat)
    (x : Nat → S) (incx : Int) (hinc : 0 < incx) (hx : (n - 1) * incx.toNat < SIZE_MOD) :
    ∃ r : K, nrm2 sqrt n x incx = Except.ok r ∧
      r = sqrt (∑ i in Finset.range n,
          (real (x (i * incx.toNat)) ^ 2 + imag (x (i * incx.toNat)) ^ 2)) ∧
      0 ≤ r ∧
      r ^ 2 = ∑ i in Finset.range n,
          (real (x (i * incx.toNat)) ^ 2 + imag (x (i * incx.toNat)) ^ 2) := by
  have h := nrm2_eq_sqrt_sum sqrt n x incx hinc hx
  simp only [← pow_two] at h
  have hnn : (0 : K) ≤ ∑ i in Finset.range n,
      (real (x (i * incx.toNat)) ^ 2 + imag (x (i * incx.toNat)) ^ 2) :=
    Finset.sum_nonneg (fun i _ => add_nonneg (sq_nonneg _) (sq_nonneg _))
  refine ⟨_, h, rfl, (hsqrt _ hnn).1, ?_⟩
  rw [pow_two]
  exact (hsqrt _ hnn).2

/-- C10: `nrm2` fails with `InvalidArgument` exactly when `incx ≤ 0`, whatever `n`
and `x` are, and it returns a value exactly when `incx > 0`. -/
theorem nrm2_invalid_iff {K S : Type} [ScalarOps K S] [Add K] [Mul K] [Zero K]
    (sqrt : K → K) (n : Nat) (x : Nat → S) (incx : Int) :
    (nrm2 sqrt n x incx = Except.error BlasError.InvalidArgument ↔ incx ≤ 0) ∧
    ((∃ r : K, nrm2 sqrt n x incx = Except.ok r) ↔ 0 < incx) := by
  unfold nrm2
  by_cases h : incx ≤ 0
  · simp [h]
  · have h2 : 0 < incx := by omega
    by_cases h1 : incx = 1 <;> simp [h, h1, h2]

end Nrm2Statements

/-- Witness of C4: over the real numbers with the real square root, `nrm2` of the
real vector `[3, 4]` is `5` and `nrm2` of the single complex element `3 + 4i`
is `5`. -/
theorem nrm2_sqrt_sum_witness :
    nrm2 Real.sqrt 2 (fun k => if k = 0 then (3 : ℝ) else 4) 1 = Except.ok 5 ∧
    nrm2 Real.sqrt 1 (fun _ => (⟨3, 4⟩ : Cplx ℝ)) 1 = Except.ok 5 := by
  have hs : ∀ a : ℝ, 0 ≤ a → 0 ≤ Real.sqrt a ∧ Real.sqrt a * Real.sqrt a = a :=
    fun a ha => ⟨Real.sqrt_nonneg a, Real.mul_self_sqrt ha⟩
  constructor
  · obtain ⟨r, h, _, h0, hsq⟩ := nrm2_sqrt_sum Real.sqrt hs 2
      (fun k => if k = 0 then (3 : ℝ) else 4) 1 (by decide) (by decide)
    have h5 : r = 5 := by
      simp [Finset.sum_range_succ, ScalarOps.real, ScalarOps.imag] at hsq
      nlinarith
    rw [h, h5]
  · obtain ⟨r, h, _, h0, hsq⟩ := nrm2_sqrt_sum Real.sqrt hs 1
      (fun _ => (⟨3, 4⟩ : Cplx ℝ)) 1 (by decide) (by decide)
    have h5 : r = 5 := by
      simp [ScalarOps.real, ScalarOps.imag] at hsq
      nlinarith
    rw [h, h5]

/-! ## Equivalences between calls of `her` -/

section HerEquivalences

variable {K S : Type} [ScalarOps K S] [Add S] [Mul S] [Add K] [Zero K] [DecidableEq K]

open ScalarOps

/-- Two calls whose vectors have the same logical elements give the same outcome
and the same buffer. -/
theorem her_congr_logical (layout : Layout) (uplo : Uplo) (n : Nat) (alpha : K)
    (x y : Nat → S) (incx incy : Int) (A : Nat → S) (lda : Nat)
    (hincx : incx ≠ 0) (hincy : incy ≠ 0)
    (hx : (n - 1) * incx.natAbs < SIZE_MOD) (hy : (n - 1) * incy.natAbs < SIZE_MOD)
    (h : ∀ k, k < n → x (xidx n incx k) = y (xidx n incy k)) :
    her layout uplo n alpha x incx A lda = her layout uplo n alpha y incy A lda := by
  by_cases hv : layout = Layout.Unknown ∨ uplo = Uplo.Unknown ∨ lda < n
  · rw [her_invalid layout uplo n alpha x incx A lda (by tauto),
      her_invalid layout uplo n alpha y incy A lda (by tauto)]
  · have hl : layout ≠ Layout.Unknown := fun e => hv (Or.inl e)
    have hu : uplo ≠ Uplo.Unknown := fun e => hv (Or.inr (Or.inl e))
    have hlda : n ≤ lda := by
      by_contra hc
      exact hv (Or.inr (Or.inr (by omega)))
    by_cases hq : n = 0 ∨ alpha = 0
    · rw [her_quick layout uplo n alpha x incx A lda hl hu hincx hlda hq,
        her_quick layout uplo n alpha y incy A lda hl hu hincy hlda hq]
    · have hn : n ≠ 0 := fun e => hq (Or.inl e)
      have ha : alpha ≠ 0 := fun e => hq (Or.inr e)
      rw [her_eq_of_valid layout uplo n alpha x incx A lda hl hu hn ha hincx hlda hx,
        her_eq_of_valid layout uplo n alpha y incy A lda hl hu hn ha hincy hlda hy,
        herUpperUnit_congr n alpha (fun i => x (xidx n incx i)) (fun i => y (xidx n incy i))
          A lda h,
        herLowerUnit_congr n alpha (fun i => x (xidx n incx i)) (fun i => y (xidx n incy i))
          A lda h]

/-- C11: for `n ≥ 1` and a negative stride (the vector array being addressable),
the call with `x` and `incx` gives the same outcome and matrix buffer as the call
with stride `1` on any `y` with `y[k] = x[(n-1-k)*|incx|]` for `k < n`, and the
start offset `kx = (-n + 1)*incx` computed in `size_t` is `(n-1)*|incx|`. -/
theorem her_negative_stride_reversal (layout : Layout) (uplo : Uplo) (n : Nat) (alpha : K)
    (x y : Nat → S) (incx : Int) (A : Nat → S) (lda : Nat) (hn : 1 ≤ n) (hinc : incx < 0)
    (hx : (n - 1) * incx.natAbs < SIZE_MOD)
    (hy : ∀ k, k < n → y k = x ((n - 1 - k) * incx.natAbs)) :
    her layout uplo n alpha x incx A lda = her layout uplo n alpha y 1 A lda ∧
    herKx n incx = (n - 1) * incx.natAbs := by
  have hpos : 0 < incx.natAbs := Int.natAbs_pos.mpr (by omega)
  have h1 : (n - 1) * (1 : Int).natAbs < SIZE_MOD :=
    lt_of_le_of_lt (Nat.mul_le_mul_left _ hpos) hx
  constructor
  · refine her_congr_logical layout uplo n alpha x y incx 1 A lda (by omega) (by decide)
      hx h1 ?_
    intro k hk
    have e1 : xidx n incx k = (n - 1 - k) * incx.natAbs := by
      unfold xidx
      rw [if_neg (by omega)]
    have e2 : xidx n 1 k = k := by simp [xidx]
    rw [e1, e2, hy k hk]
  · have h := runIdx_herKx n incx 0 (by omega) hx
    simp only [runIdx] at h
    rw [h]
    unfold xidx
    rw [if_neg (by omega)]
    simp

/-- C13: for every triangle selector `T` and all other arguments, the call with
`RowMajor` and `T` gives the same outcome and leaves the buffer element for
element identical to the call with `ColMajor` and the opposite triangle on the
same buffer. -/
theorem her_rowmajor_eq_colmajor_opposite (uplo : Uplo) (n : Nat) (alpha : K)
    (x : Nat → S) (incx : Int) (A : Nat → S) (lda : Nat) :
    her Layout.RowMajor uplo n alpha x incx A lda
      = her Layout.ColMajor (oppositeUplo uplo) n alpha x incx A lda := by
  unfold her oppositeUplo
  cases uplo <;> rfl

/-- C14: for a stride `incx > 1` (the vector array being addressable), the
general-stride call on `x` gives the same outcome and matrix buffer as the
unit-stride call on any `y` with `y[k] = x[k*incx]` for `k < n`, and as the
general-stride call on any other buffer that agrees with `x` at the positions
`k*incx`, `k < n`: the padding of `x` has no influence. -/
theorem her_stride_equivalence (layout : Layout) (uplo : Uplo) (n : Nat) (alpha : K)
    (x : Nat → S) (incx : Int) (A : Nat → S) (lda : Nat) (hinc : 1 < incx)
    (hx : (n - 1) * incx.toNat < SIZE_MOD) :
    (∀ y : Nat → S, (∀ k, k < n → y k = x (k * incx.toNat)) →
      her layout uplo n alpha x incx A lda = her layout uplo n alpha y 1 A lda) ∧
    (∀ x2 : Nat → S, (∀ k, k < n → x2 (k * incx.toNat) = x (k * incx.toNat)) →
      her layout uplo n alpha x2 incx A lda = her layout uplo n alpha x incx A lda) := by
  have hnat : incx.natAbs = incx.toNat := by omega
  have hpos : 0 < incx.natAbs := by omega
  have hx1 : (n - 1) * incx.natAbs < SIZE_MOD := by rw [hnat]; exact hx
  have h1 : (n - 1) * (1 : Int).natAbs < SIZE_MOD :=
    lt_of_le_of_lt (Nat.mul_le_mul_left _ hpos) hx1
  have e1 : ∀ k, xidx n incx k = k * incx.toNat := by
    intro k
    unfold xidx
    rw [if_pos (by omega), hnat]
  have e2 : ∀ k, xidx n 1 k = k := by
    intro k
    simp [xidx]
  constructor
  · intro y hy
    refine her_congr_logical layout uplo n alpha x y incx 1 A lda (by omega) (by decide)
      hx1 h1 ?_
    intro k hk
    rw [e1, e2, hy k hk]
  · intro x2 h2
    refine her_congr_logical layout uplo n alpha x2 x incx incx A lda (by omega) (by omega)
      hx1 hx1 ?_
    intro k hk
    rw [e1, h2 k hk]

end HerEquivalences

/-- Witness of C11: stride `-1` over the buffer `[v0, v1, v2]` behaves as the
logical vector `[v2, v1, v0]`, and `kx = 2`. -/
theorem her_negative_stride_reversal_witness :
    her Layout.ColMajor Uplo.Upper 3 (1 : Int) vecRamp (-1) zeroBuf 3
      = her Layout.ColMajor Uplo.Upper 3 (1 : Int) (fun k => vecRamp (2 - k)) 1 zeroBuf 3 ∧
    herKx 3 (-1) = (3 - 1) * (-1 : Int).natAbs :=
  her_negative_stride_reversal Layout.ColMajor Uplo.Upper 3 (1 : Int) vecRamp
    (fun k => vecRamp (2 - k)) (-1) zeroBuf 3 (by decide) (by decide) (by decide)
    (fun k _ => by simp)

/-- Witness of C14: stride `2` over `[v0, pad, v2]` against stride `1` over
`[v0, v2]`. -/
theorem her_stride_equivalence_witness :
    her Layout.RowMajor Uplo.Lower 2 (1 : Int) vecRamp 2 imagBuf 2
      = her Layout.RowMajor Uplo.Lower 2 (1 : Int) (fun k => vecRamp (k * 2)) 1 imagBuf 2 :=
  (her_stride_equivalence Layout.RowMajor Uplo.Lower 2 (1 : Int) vecRamp 2 imagBuf 2
    (by decide) (by decide)).1 (fun k => vecRamp (k * 2)) (fun k _ => rfl)

/-! ## Further statements about `nrm2` -/

/-- The first component of a loop over pairs whose first component evolves on
its own is the loop over the first component. -/
theorem loopN_fst {α β : Type} (f : Nat → α → α) (g : Nat → α → β → β) (lo t : Nat)
    (a : α) (b : β) :
    (loopN (fun i (s : α × β) => (f i s.1, g i s.1 s.2)) lo t (a, b)).1 = loopN f lo t a := by
  induction t with
  | zero => rfl
  | succ t ih =>
    simp only [loopN]
    rw [ih]

section Nrm2More

open ScalarOps

/-- On a positive stride `nrm2` is the square root of the value accumulated over
the logical elements `x[i*incx]`, in index order. -/
theorem nrm2_eq_loop {K S : Type} [ScalarOps K S] [Add K] [Mul K] [Zero K] (sqrt : K → K)
    (n : Nat) (x : Nat → S) (incx : Int) (hinc : 0 < incx)
    (hx : (n - 1) * incx.toNat < SIZE_MOD) :
    nrm2 sqrt n x incx
      = Except.ok (sqrt (loopN (fun i (r : K) =>
          r + (real (x (i * incx.toNat)) * real (x (i * incx.toNat))
            + imag (x (i * incx.toNat)) * imag (x (i * incx.toNat)))) 0 n 0)) := by
  unfold nrm2 forLoop
  rw [if_neg (by omega)]
  by_cases h1 : incx = 1
  · subst h1
    simp
  · simp only [if_neg h1]
    have hrun : ∀ i, i < n → runIdx 0 incx i = i * incx.toNat := by
      intro i hi
      have hnat : incx.natAbs = incx.toNat := by omega
      have h := runIdx_herKx n incx i hi (by rw [hnat]; exact hx)
      have hk : herKx n incx = 0 := by unfold herKx; rw [if_pos hinc]
      rw [hk] at h
      rw [h]
      unfold xidx
      rw [if_pos hinc, hnat]
    have h := loopN_with_index (fun _ ix (r : K) =>
      r + (real (x ix) * real (x ix) + imag (x ix) * imag (x ix))) 0 incx 0 (n - 0) 0 (0 : K)
    simp only [runIdx, Nat.zero_add, Nat.sub_zero] at h ⊢
    rw [h]
    simp only
    rw [loopN_congr _ (fun i (r : K) => r + (real (x (i * incx.toNat)) * real (x (i * incx.toNat))
      + imag (x (i * incx.toNat)) * imag (x (i * incx.toNat)))) 0 n 0
      (fun s hs b => by
        simp only [Nat.zero_add]
        rw [hrun s hs])]

/-- The traced function returns what `nrm2` returns. -/
theorem nrm2Traced_fst {K S : Type} [ScalarOps K S] [Add K] [Mul K] [Zero K] (sqrt : K → K)
    (n : Nat) (x : Nat → S) (incx : Int) :
    (nrm2Traced sqrt n x incx).1 = nrm2 sqrt n x incx := by
  unfold nrm2Traced nrm2 forLoop
  by_cases h0 : incx ≤ 0
  · simp [h0]
  · by_cases h1 : incx = 1
    · subst h1
      simp only [h0, if_false, if_true]
      rw [loopN_fst (fun i (r : K) => r + (real (x i) * real (x i) + imag (x i) * imag (x i)))
        (fun i _ (l : List Nat) => l ++ [i])]
    · simp only [h0, h1, if_false]
      have ha := loopN_with_index (fun _ ix (s : K × List Nat) =>
        (s.1 + (real (x ix) * real (x ix) + imag (x ix) * imag (x ix)), s.2 ++ [ix]))
        0 incx 0 (n - 0) 0 ((0 : K), ([] : List Nat))
      have hb := loopN_with_index (fun _ ix (r : K) =>
        r + (real (x ix) * real (x ix) + imag (x ix) * imag (x ix))) 0 incx 0 (n - 0) 0 (0 : K)
      simp only [runIdx, Nat.zero_add, Nat.sub_zero] at ha hb ⊢
      rw [ha, hb]
      simp only
      rw [loopN_fst (fun i (r : K) => r + (real (x (runIdx 0 incx i)) * real (x (runIdx 0 incx i))
          + imag (x (runIdx 0 incx i)) * imag (x (runIdx 0 incx i))))
        (fun i _ (l : List Nat) => l ++ [runIdx 0 incx i])]

/-- C12: for every buffer `x` and every stride `incx > 0`, with a square root that
maps `0` to `0`, `nrm2(0, x, incx)` returns `0`, and the traced run reads no
element of `x`. -/
theorem nrm2_zero_length {K S : Type} [ScalarOps K S] [Add K] [Mul K] [Zero K]
    (sqrt : K → K) (hs : sqrt 0 = 0) (x : Nat → S) (incx : Int) (hinc : 0 < incx) :
    nrm2 sqrt 0 x incx = Except.ok 0 ∧
    nrm2Traced sqrt 0 x incx = (Except.ok 0, []) := by
  have h0 : ¬ incx ≤ 0 := by omega
  unfold nrm2 nrm2Traced forLoop
  by_cases h1 : incx = 1 <;> simp [h0, h1, loopN, hs]

/-- C15: for a stride `incx > 1` (the vector array being addressable), `nrm2` on
`x` with stride `incx` equals `nrm2` with stride `1` on any `y` with
`y[k] = x[k*incx]` for `k < n`, and equals `nrm2` with stride `incx` on any other
buffer that agrees with `x` at the positions `k*incx`, `k < n`. -/
theorem nrm2_stride_equivalence {K S : Type} [ScalarOps K S] [Add K] [Mul K] [Zero K]
    (sqrt : K → K) (n : Nat) (x : Nat → S) (incx : Int) (hinc : 1 < incx)
    (hx : (n - 1) * incx.toNat < SIZE_MOD) :
    (∀ y : Nat → S, (∀ k, k < n → y k = x (k * incx.toNat)) →
      nrm2 sqrt n x incx = nrm2 sqrt n y 1) ∧
    (∀ x2 : Nat → S, (∀ k, k < n → x2 (k * incx.toNat) = x (k * incx.toNat)) →
      nrm2 sqrt n x2 incx = nrm2 sqrt n x incx) := by
  have hpos : 0 < incx.toNat := by omega
  have h1 : (n - 1) * (1 : Int).toNat < SIZE_MOD :=
    lt_of_le_of_lt (Nat.mul_le_mul_left _ hpos) hx
  constructor
  · intro y hy
    rw [nrm2_eq_loop sqrt n x incx (by omega) hx, nrm2_eq_loop sqrt n y 1 (by decide) h1]
    congr 2
    refine loopN_congr _ _ _ _ _ ?_
    intro s hs b
    simp only [Nat.zero_add, Int.toNat_one, Nat.mul_one]
    rw [hy s hs]
  · intro x2 h2
    rw [nrm2_eq_loop sqrt n x2 incx (by omega) hx, nrm2_eq_loop sqrt n x incx (by omega) hx]
    congr 2
    refine loopN_congr _ _ _ _ _ ?_
    intro s hs b
    simp only [Nat.zero_add]
    rw [h2 s hs]

/-- C20: in exact arithmetic (a linearly ordered ring, a square root that meets
its contract), for `incx > 0` (the vector array being addressable) `nrm2` returns
a value `r ≥ 0`, and `r = 0` if and only if every logical element `x[i*incx]`,
`i < n`, has real part `0` and imaginary part `0`. -/
theorem nrm2_definite {K S : Type} [LinearOrderedRing K] [ScalarOps K S] (sqrt : K → K)
    (hsqrt : ∀ a : K, 0 ≤ a → 0 ≤ sqrt a ∧ sqrt a * sqrt a = a) (n : Nat)
    (x : Nat → S) (incx : Int) (hinc : 0 < incx) (hx : (n - 1) * incx.toNat < SIZE_MOD) :
    ∃ r : K, nrm2 sqrt n x incx = Except.ok r ∧ 0 ≤ r ∧
      (r = 0 ↔ ∀ i, i < n →
        real (x (i * incx.toNat)) = 0 ∧ imag (x (i * incx.toNat)) = 0) := by
  have hnn : (0 : K) ≤ ∑ i in Finset.range n,
      (real (x (i * incx.toNat)) * real (x (i * incx.toNat))
        + imag (x (i * incx.toNat)) * imag (x (i * incx.toNat))) :=
    Finset.sum_nonneg (fun i _ => add_nonneg (mul_self_nonneg _) (mul_self_nonneg _))
  refine ⟨_, nrm2_eq_sqrt_sum sqrt n x incx hinc hx, (hsqrt _ hnn).1, ?_⟩
  have hsq := (hsqrt _ hnn).2
  constructor
  · intro h0 i hi
    rw [h0, mul_zero] at hsq
    have hterm := (Finset.sum_eq_zero_iff_of_nonneg
      (fun i _ => add_nonneg (mul_self_nonneg (real (x (i * incx.toNat))))
        (mul_self_nonneg (imag (x (i * incx.toNat)))))).mp hsq.symm i (Finset.mem_range.mpr hi)
    have h1 := mul_self_nonneg (real (x (i * incx.toNat)))
    have h2 := mul_self_nonneg (imag (x (i * incx.toNat)))
    have h3 := (add_eq_zero_iff_of_nonneg h1 h2).mp hterm
    exact ⟨mul_self_eq_zero.mp h3.1, mul_self_eq_zero.mp h3.2⟩
  · intro hall
    have hsum : ∑ i in Finset.range n,
        (real (x (i * incx.toNat)) * real (x (i * incx.toNat))
          + imag (x (i * incx.toNat)) * imag (x (i * incx.toNat))) = 0 := by
      refine Finset.sum_eq_zero ?_
      intro i hi
      rw [(hall i (Finset.mem_range.mp hi)).1, (hall i (Finset.mem_range.mp hi)).2]
      simp
    rw [hsum] at hsq ⊢
    exact mul_self_eq_zero.mp hsq

end Nrm2More

/-- Witness of C12: the integer square root and stride `3`. -/
theorem nrm2_zero_length_witness :
    nrm2 Int.sqrt 0 vecRamp 3 = Except.ok 0 ∧
    nrm2Traced Int.sqrt 0 vecRamp 3 = (Except.ok 0, []) :=
  nrm2_zero_length Int.sqrt (by simp [Int.sqrt]) vecRamp 3 (by decide)

/-- Witness of C15: stride `2` over `[v0, pad, v2]` against stride `1` over
`[v0, v2]`. -/
theorem nrm2_stride_equivalence_witness :
    nrm2 Int.sqrt 2 vecRamp 2 = nrm2 Int.sqrt 2 (fun k => vecRamp (k * 2)) 1 :=
  (nrm2_stride_equivalence Int.sqrt 2 vecRamp 2 (by decide) (by decide)).1
    (fun k => vecRamp (k * 2)) (fun k _ => rfl)

/-- Witness of C20: over the real numbers, the norm of the real vector `[0, 0]` is
`0` and the norm of `[3, 4]` is not. -/
theorem nrm2_definite_witness :
    nrm2 Real.sqrt 2 (fun _ => (0 : ℝ)) 1 = Except.ok 0 ∧
    nrm2 Real.sqrt 2 (fun k => if k = 0 then (3 : ℝ) else 4) 1 ≠ Except.ok 0 := by
  have hs : ∀ a : ℝ, 0 ≤ a → 0 ≤ Real.sqrt a ∧ Real.sqrt a * Real.sqrt a = a :=
    fun a ha => ⟨Real.sqrt_nonneg a, Real.mul_self_sqrt ha⟩
  constructor
  · obtain ⟨r, h, _, hz⟩ := nrm2_definite Real.sqrt hs 2 (fun _ => (0 : ℝ)) 1
      (by decide) (by decide)
    rw [h, hz.mpr (fun i _ => ⟨rfl, rfl⟩)]
  · obtain ⟨r, h, _, hz⟩ := nrm2_definite Real.sqrt hs 2
      (fun k => if k = 0 then (3 : ℝ) else 4) 1 (by decide) (by decide)
    rw [h]
    intro e
    have e0 : r = 0 := by
      injection e
    have h3 := (hz.mp e0 0 (by decide)).1
    simp [ScalarOps.real] at h3

/-! ## Algebra of the complex and real element types -/

section HerSymmetry

variable {K S : Type} [ScalarOps K S] [Add S] [Mul S] [Add K] [Zero K] [DecidableEq K]

open ScalarOps

end HerSymmetry

section EntryForm

variable {K S : Type} [ScalarOps K S] [Add S] [Mul S] [Add K] [Zero K] [DecidableEq K]

open ScalarOps

/-- The shape of every entry of the requested triangle after a call that passes
the quick return: an off-diagonal entry `(r, c)` is its old value plus the
product of one of `xl[r]`, `xl[c]` with `alpha` times the conjugate of the other,
a diagonal entry is the converted real value built from `xl[r]` twice. -/
theorem her_entry_form (layout : Layout) (uplo : Uplo) (n : Nat) (alpha : K) (x : Nat → S)
    (incx : Int) (A : Nat → S) (lda : Nat) (hl : layout ≠ Layout.Unknown)
    (hu : uplo ≠ Uplo.Unknown) (ha : alpha ≠ 0) (hinc : incx ≠ 0) (hlda : n ≤ lda)
    (hA : lda * n < SIZE_MOD) (hx : (n - 1) * incx.natAbs < SIZE_MOD)
    (r c : Nat) (hr : r < n) (hc : c < n) (ht : inTriangle uplo r c) :
    ∃ u v, ((u = r ∧ v = c) ∨ (u = c ∧ v = r)) ∧
      ((her layout uplo n alpha x incx A lda).2 (slot layout lda r c)
          = A (slot layout lda r c)
            + x (xidx n incx u) * scale alpha (conj (x (xidx n incx v))) ∨
        (her layout uplo n alpha x incx A lda).2 (slot layout lda r c)
          = ofReal (real (A (slot layout lda r c))
            + real (x (xidx n incx u) * scale alpha (conj (x (xidx n incx v))))) ∨
        (her layout uplo n alpha x incx A lda).2 (slot layout lda r c)
          = ofReal (real (A (slot layout lda r c))
            + real (scale alpha (conj (x (xidx n incx v))) * x (xidx n incx u)))) := by
  rw [her_eq_of_valid layout uplo n alpha x incx A lda hl hu (by omega) ha hinc hlda hx]
  have hsr : slot Layout.RowMajor lda r c = c + r * lda := by
    simp [slot, Nat.add_comm]
  have hsc : slot Layout.ColMajor lda r c = r + c * lda := by
    simp [slot]
  by_cases hd : r = c
  · subst hd
    refine ⟨r, r, Or.inl ⟨rfl, rfl⟩, Or.inr ?_⟩
    cases layout <;> cases uplo <;>
      simp only [effUplo, if_true, reduceCtorEq, if_false, hsr, hsc, ne_eq,
        not_true_eq_false] at hl hu ⊢
    · exact Or.inl (herUpperUnit_diag n alpha _ A lda hlda hA r hr)
    · exact Or.inr (herLowerUnit_diag n alpha _ A lda hlda hA r hr)
    · exact Or.inr (herLowerUnit_diag n alpha _ A lda hlda hA r hr)
    · exact Or.inl (herUpperUnit_diag n alpha _ A lda hlda hA r hr)
  · cases layout <;> cases uplo <;>
      simp only [effUplo, if_true, reduceCtorEq, if_false, hsr, hsc, ne_eq,
        not_true_eq_false, inTriangle, true_and, false_and, or_false, false_or] at hl hu ht ⊢
    · exact ⟨r, c, Or.inl ⟨rfl, rfl⟩,
        Or.inl (herUpperUnit_offdiag n alpha _ A lda hlda hA r c (by omega) hc)⟩
    · exact ⟨r, c, Or.inl ⟨rfl, rfl⟩,
        Or.inl (herLowerUnit_offdiag n alpha _ A lda hlda hA r c (by omega) hr)⟩
    · exact ⟨c, r, Or.inr ⟨rfl, rfl⟩,
        Or.inl (herLowerUnit_offdiag n alpha _ A lda hlda hA c r (by omega) hc)⟩
    · exact ⟨c, r, Or.inr ⟨rfl, rfl⟩,
        Or.inl (herUpperUnit_offdiag n alpha _ A lda hlda hA c r (by omega) hr)⟩

end EntryForm

section NaNLaws

variable {K : Type}

theorem cplxIsNaN_scale_conj [Mul K] [Neg K] [Zero K] (a : WithNaN K) (b : Cplx (WithNaN K))
    (h : cplxIsNaN b) : cplxIsNaN (ScalarOps.scale a (ScalarOps.conj b)) := by
  rcases b with ⟨br, bi⟩
  cases a <;> cases br <;> cases bi <;>
    first
      | exact Or.inl rfl
      | exact Or.inr rfl
      | (exfalso; simp [cplxIsNaN] at h)

theorem cplx_mul_nan [Add K] [Sub K] [Mul K] (a b : Cplx (WithNaN K))
    (h : cplxIsNaN a ∨ cplxIsNaN b) :
    (a * b).re = WithNaN.nan ∧ (a * b).im = WithNaN.nan := by
  rcases a with ⟨ar, ai⟩
  rcases b with ⟨br, bi⟩
  cases ar <;> cases ai <;> cases br <;> cases bi <;>
    first
      | exact ⟨rfl, rfl⟩
      | (exfalso; simp [cplxIsNaN] at h)

theorem cplxIsNaN_add [Add K] (v w : Cplx (WithNaN K)) (h : w.re = WithNaN.nan) :
    cplxIsNaN (v + w) := by
  rcases v with ⟨vr, vi⟩
  rcases w with ⟨wr, wi⟩
  simp only at h
  subst h
  cases vr <;> exact Or.inl rfl

theorem cplxIsNaN_ofReal [Add K] [Mul K] [Neg K] [Zero K] (v w : Cplx (WithNaN K))
    (h : w.re = WithNaN.nan) :
    cplxIsNaN (ScalarOps.ofReal (ScalarOps.real v + ScalarOps.real w) : Cplx (WithNaN K)) := by
  rcases v with ⟨vr, vi⟩
  rcases w with ⟨wr, wi⟩
  simp only at h
  subst h
  cases vr <;> exact Or.inl rfl

theorem withNaN_mul_nan [Mul K] (a b : WithNaN K) (h : a = WithNaN.nan ∨ b = WithNaN.nan) :
    a * b = WithNaN.nan := by
  cases a <;> cases b <;>
    first
      | rfl
      | (exfalso; simp at h)

theorem withNaN_add_nan [Add K] (a : WithNaN K) : a + WithNaN.nan = WithNaN.nan := by
  cases a <;> rfl

end NaNLaws

/-- C16: over the scalar models with an absorbing NaN (complex and real), for
valid arguments with `alpha ≠ 0` and `k < n`: if the logical element `xl[k]` is NaN
then the call returns normally and every entry `(r, c)` of the requested triangle
(diagonal included) with `r = k` or `c = k` is NaN afterwards, whatever the other
elements of `x` are (zero included) and whatever `A` contained. -/
theorem her_nan_propagation {K : Type} [Add K] [Sub K] [Mul K] [Neg K] [Zero K]
    [DecidableEq K] (layout : Layout) (uplo : Uplo) (n : Nat) (alpha : WithNaN K)
    (incx : Int) (lda : Nat) (hl : layout ≠ Layout.Unknown) (hu : uplo ≠ Uplo.Unknown)
    (ha : alpha ≠ 0) (hinc : incx ≠ 0) (hlda : n ≤ lda) (hA : lda * n < SIZE_MOD)
    (hx : (n - 1) * incx.natAbs < SIZE_MOD) (k : Nat) (hk : k < n) :
    (∀ (x A : Nat → Cplx (WithNaN K)), cplxIsNaN (x (xidx n incx k)) →
      ∃ A1 : Nat → Cplx (WithNaN K),
        her layout uplo n alpha x incx A lda = (Except.ok (), A1) ∧
        ∀ r c, r < n → c < n → inTriangle uplo r c → (r = k ∨ c = k) →
          cplxIsNaN (A1 (slot layout lda r c))) ∧
    (∀ (x A : Nat → WithNaN K), x (xidx n incx k) = WithNaN.nan →
      ∃ A1 : Nat → WithNaN K,
        her layout uplo n alpha x incx A lda = (Except.ok (), A1) ∧
        ∀ r c, r < n → c < n → inTriangle uplo r c → (r = k ∨ c = k) →
          A1 (slot layout lda r c) = WithNaN.nan) := by
  constructor
  · intro x A hnan
    refine ⟨_, her_eq_of_valid layout uplo n alpha x incx A lda hl hu (by omega) ha hinc
      hlda hx, ?_⟩
    intro r c hr hc ht hrc
    obtain ⟨u, v, huv, hform⟩ :=
      her_entry_form layout uplo n alpha x incx A lda hl hu ha hinc hlda hA hx r c hr hc ht
    rw [her_eq_of_valid layout uplo n alpha x incx A lda hl hu (by omega) ha hinc hlda hx]
      at hform
    dsimp only at hform
    have hprod : cplxIsNaN (x (xidx n incx u))
        ∨ cplxIsNaN (ScalarOps.scale alpha (ScalarOps.conj (x (xidx n incx v)))) := by
      rcases huv with ⟨e1, e2⟩ | ⟨e1, e2⟩ <;> rcases hrc with e | e
      · left; rw [e1, e]; exact hnan
      · right; rw [e2, e]; exact cplxIsNaN_scale_conj _ _ hnan
      · right; rw [e2, e]; exact cplxIsNaN_scale_conj _ _ hnan
      · left; rw [e1, e]; exact hnan
    rcases hform with h | h | h
    · rw [h]
      exact cplxIsNaN_add _ _ (cplx_mul_nan _ _ hprod).1
    · rw [h]
      exact cplxIsNaN_ofReal _ _ (cplx_mul_nan _ _ hprod).1
    · rw [h]
      exact cplxIsNaN_ofReal _ _ (cplx_mul_nan _ _ hprod.symm).1
  · intro x A hnan
    refine ⟨_, her_eq_of_valid layout uplo n alpha x incx A lda hl hu (by omega) ha hinc
      hlda hx, ?_⟩
    intro r c hr hc ht hrc
    obtain ⟨u, v, huv, hform⟩ :=
      her_entry_form layout uplo n alpha x incx A lda hl hu ha hinc hlda hA hx r c hr hc ht
    rw [her_eq_of_valid layout uplo n alpha x incx A lda hl hu (by omega) ha hinc hlda hx]
      at hform
    dsimp only at hform
    have hprod : x (xidx n incx u) = WithNaN.nan
        ∨ alpha * x (xidx n incx v) = WithNaN.nan := by
      rcases huv with ⟨e1, e2⟩ | ⟨e1, e2⟩ <;> rcases hrc with e | e
      · left; rw [e1, e]; exact hnan
      · right; rw [e2, e]; exact withNaN_mul_nan _ _ (Or.inr hnan)
      · right; rw [e2, e]; exact withNaN_mul_nan _ _ (Or.inr hnan)
      · left; rw [e1, e]; exact hnan
    rcases hform with h | h | h
    · rw [h]
      show _ + x (xidx n incx u) * (alpha * x (xidx n incx v)) = _
      rw [withNaN_mul_nan _ _ hprod, withNaN_add_nan]
    · rw [h]
      show _ + x (xidx n incx u) * (alpha * x (xidx n incx v)) = _
      rw [withNaN_mul_nan _ _ hprod, withNaN_add_nan]
    · rw [h]
      show _ + (alpha * x (xidx n incx v)) * x (xidx n incx u) = _
      rw [withNaN_mul_nan _ _ hprod.symm, withNaN_add_nan]

/-- Witness of C16: `x = [0, NaN]`, `alpha = 1`, zero matrix, `ColMajor`, `Upper`,
`n = 2`: the entry `(0, 1)`, whose other factor `x[0]` is zero, and the diagonal
entry `(1, 1)` are NaN. -/
theorem her_nan_propagation_witness :
    ∃ A1 : Nat → Cplx (WithNaN Int),
      her Layout.ColMajor Uplo.Upper 2 (WithNaN.num (1 : Int)) vecZeroNaN 1 zeroBufNaN 2
        = (Except.ok (), A1) ∧
      cplxIsNaN (A1 (slot Layout.ColMajor 2 0 1)) ∧
      cplxIsNaN (A1 (slot Layout.ColMajor 2 1 1)) := by
  obtain ⟨A1, h, hall⟩ := (her_nan_propagation Layout.ColMajor Uplo.Upper 2
    (WithNaN.num (1 : Int)) 1 2 (by decide) (by decide) (by decide) (by decide) (by decide)
    (by decide) (by decide) 1 (by decide)).1 vecZeroNaN zeroBufNaN (by decide)
  exact ⟨A1, h, hall 0 1 (by decide) (by decide) (by decide) (Or.inr rfl),
    hall 1 1 (by decide) (by decide) (by decide) (Or.inl rfl)⟩

/-! ## Index safety -/

theorem loopN_fst_of {α β : Type} (F : Nat → α × β → α × β) (f : Nat → α → α)
    (h : ∀ i s, (F i s).1 = f i s.1) (lo t : Nat) (a : α) (b : β) :
    (loopN F lo t (a, b)).1 = loopN f lo t a := by
  induction t with
  | zero => rfl
  | succ t ih =>
    simp only [loopN]
    rw [h, ih]

/-- A property of the loop state that holds initially and is preserved by every
iteration holds at the end. -/
theorem loopN_inv {σ : Type} (P : σ → Prop) (f : Nat → σ → σ) (lo t : Nat) (a : σ)
    (h0 : P a) (hstep : ∀ s, s < t → ∀ b, P b → P (f (lo + s) b)) : P (loopN f lo t a) := by
  induction t with
  | zero => exact h0
  | succ t ih =>
    simp only [loopN]
    exact hstep t (by omega) _ (ih (fun s hs b hb => hstep s (by omega) b hb))

section TracedSweeps

variable {K S : Type} [ScalarOps K S] [Add S] [Mul S] [Add K]

open ScalarOps

theorem herUpperUnitT_eq (n : Nat) (alpha : K) (x : Nat → S) (A : Nat → S) (lda : Nat) :
    herUpperUnitT n alpha x A lda = upperSweepT (fun k => k) n alpha x A lda := rfl

theorem herLowerUnitT_eq (n : Nat) (alpha : K) (x : Nat → S) (A : Nat → S) (lda : Nat) :
    herLowerUnitT n alpha x A lda = lowerSweepT (fun k => k) n alpha x A lda := rfl

theorem herUpperStridedT_eq (n : Nat) (alpha : K) (x : Nat → S) (incx : Int) (kx : Nat)
    (A : Nat → S) (lda : Nat) :
    herUpperStridedT n alpha x incx kx A lda
      = upperSweepT (runIdx kx incx) n alpha x A lda := by
  unfold herUpperStridedT upperSweepT forLoop
  have hin : ∀ (j : Nat) (tmp : S) (B : (Nat → S) × List Access),
      loopN (fun i (s : ((Nat → S) × List Access) × Nat) =>
          ((Function.update s.1.1 (Aidx lda i j) (s.1.1 (Aidx lda i j) + x s.2 * tmp),
              s.1.2 ++ accUpdate s.2 (Aidx lda i j)),
            sizeAdd s.2 (sizeOfInt incx))) 0 (j - 0) (B, kx)
        = (loopN (fun i (s : (Nat → S) × List Access) =>
              (Function.update s.1 (Aidx lda i j)
                  (s.1 (Aidx lda i j) + x (runIdx kx incx i) * tmp),
                s.2 ++ accUpdate (runIdx kx incx i) (Aidx lda i j))) 0 (j - 0) B,
            runIdx kx incx (j - 0)) := by
    intro j tmp B
    have h := loopN_with_index (fun i ix (s : (Nat → S) × List Access) =>
      (Function.update s.1 (Aidx lda i j) (s.1 (Aidx lda i j) + x ix * tmp),
        s.2 ++ accUpdate ix (Aidx lda i j))) kx incx 0 (j - 0) 0 B
    simpa [runIdx] using h
  simp only [hin]
  have hout := loopN_with_index (fun j jx (st : (Nat → S) × List Access) =>
    ((Function.update
        (loopN (fun i (s : (Nat → S) × List Access) =>
          (Function.update s.1 (Aidx lda i j)
              (s.1 (Aidx lda i j) + x (runIdx kx incx i) * scale alpha (conj (x jx))),
            s.2 ++ accUpdate (runIdx kx incx i) (Aidx lda i j))) 0 (j - 0)
          (st.1, st.2 ++ [Access.readX jx])).1
        (Aidx lda j j)
        (ofReal (real ((loopN (fun i (s : (Nat → S) × List Access) =>
          (Function.update s.1 (Aidx lda i j)
              (s.1 (Aidx lda i j) + x (runIdx kx incx i) * scale alpha (conj (x jx))),
            s.2 ++ accUpdate (runIdx kx incx i) (Aidx lda i j))) 0 (j - 0)
          (st.1, st.2 ++ [Access.readX jx])).1 (Aidx lda j j))
          + real (x jx * scale alpha (conj (x jx))))),
      (loopN (fun i (s : (Nat → S) × List Access) =>
          (Function.update s.1 (Aidx lda i j)
              (s.1 (Aidx lda i j) + x (runIdx kx incx i) * scale alpha (conj (x jx))),
            s.2 ++ accUpdate (runIdx kx incx i) (Aidx lda i j))) 0 (j - 0)
          (st.1, st.2 ++ [Access.readX jx])).2 ++ accDiag jx (Aidx lda j j)) :
      (Nat → S) × List Access))
    kx incx 0 (n - 0) 0 (A, [])
  simp only [runIdx, Nat.zero_add, Nat.sub_zero] at hout ⊢
  rw [hout]

theorem herLowerStridedT_eq (n : Nat) (alpha : K) (x : Nat → S) (incx : Int) (kx : Nat)
    (A : Nat → S) (lda : Nat) :
    herLowerStridedT n alpha x incx kx A lda
      = lowerSweepT (runIdx kx incx) n alpha x A lda := by
  unfold herLowerStridedT lowerSweepT forLoop
  have hin : ∀ (j : Nat) (tmp : S) (B : (Nat → S) × List Access),
      (loopN (fun i (s : ((Nat → S) × List Access) × Nat) =>
          ((Function.update s.1.1 (Aidx lda i j)
                (s.1.1 (Aidx lda i j) + x (sizeAdd s.2 (sizeOfInt incx)) * tmp),
              s.1.2 ++ accUpdate (sizeAdd s.2 (sizeOfInt incx)) (Aidx lda i j)),
            sizeAdd s.2 (sizeOfInt incx))) (j + 1) (n - (j + 1)) (B, runIdx kx incx j)).1
        = loopN (fun i (s : (Nat → S) × List Access) =>
              (Function.update s.1 (Aidx lda i j)
                  (s.1 (Aidx lda i j) + x (runIdx kx incx i) * tmp),
                s.2 ++ accUpdate (runIdx kx incx i) (Aidx lda i j)))
            (j + 1) (n - (j + 1)) B := by
    intro j tmp B
    have h := loopN_with_index (fun i ix (s : (Nat → S) × List Access) =>
      (Function.update s.1 (Aidx lda i j)
          (s.1 (Aidx lda i j) + x (sizeAdd ix (sizeOfInt incx)) * tmp),
        s.2 ++ accUpdate (sizeAdd ix (sizeOfInt incx)) (Aidx lda i j))) kx incx (j + 1)
      (n - (j + 1)) j B
    rw [h]
    refine loopN_congr _ _ _ _ _ ?_
    intro s _ b
    have e : j + (j + 1 + s - (j + 1)) + 1 = j + 1 + s := by omega
    show (Function.update b.1 _
        (b.1 _ + x (runIdx kx incx (j + (j + 1 + s - (j + 1)) + 1)) * tmp),
      b.2 ++ accUpdate (runIdx kx incx (j + (j + 1 + s - (j + 1)) + 1)) _) = _
    rw [e]
  have hout := loopN_with_index (fun j jx (st : (Nat → S) × List Access) =>
    (loopN (fun i (s : ((Nat → S) × List Access) × Nat) =>
          ((Function.update s.1.1 (Aidx lda i j)
                (s.1.1 (Aidx lda i j)
                  + x (sizeAdd s.2 (sizeOfInt incx)) * scale alpha (conj (x jx))),
              s.1.2 ++ accUpdate (sizeAdd s.2 (sizeOfInt incx)) (Aidx lda i j)),
            sizeAdd s.2 (sizeOfInt incx))) (j + 1) (n - (j + 1))
      (((Function.update st.1 (Aidx lda j j)
          (ofReal (real (st.1 (Aidx lda j j)) + real (scale alpha (conj (x jx)) * x jx))),
        st.2 ++ [Access.readX jx] ++ accDiag jx (Aidx lda j j)) : (Nat → S) × List Access),
        jx)).1)
    kx incx 0 (n - 0) 0 (A, [])
  simp only [runIdx, Nat.zero_add, Nat.sub_zero] at hout ⊢
  rw [hout]
  simp only [hin]

end TracedSweeps

section TracedSweepFacts

variable {K S : Type} [ScalarOps K S] [Add S] [Mul S] [Add K]

open ScalarOps

theorem colLoopT_fst (lda j : Nat) (x : Nat → S) (pos : Nat → Nat) (tmp : S) (lo t : Nat)
    (B : Nat → S) (l : List Access) :
    (loopN (fun i (s : (Nat → S) × List Access) =>
        (Function.update s.1 (Aidx lda i j) (s.1 (Aidx lda i j) + x (pos i) * tmp),
          s.2 ++ accUpdate (pos i) (Aidx lda i j))) lo t (B, l)).1
      = loopN (fun i B => Function.update B (Aidx lda i j)
          (B (Aidx lda i j) + x (pos i) * tmp)) lo t B :=
  loopN_fst (fun i B => Function.update B (Aidx lda i j) (B (Aidx lda i j) + x (pos i) * tmp))
    (fun i _ l => l ++ accUpdate (pos i) (Aidx lda i j)) lo t B l

/-- The buffer computed by the traced upper sweep is the one of the sweep. -/
theorem upperSweepT_fst (pos : Nat → Nat) (n : Nat) (alpha : K) (x : Nat → S)
    (A : Nat → S) (lda : Nat) :
    (upperSweepT pos n alpha x A lda).1 = herUpperUnit n alpha (fun i => x (pos i)) A lda := by
  unfold upperSweepT herUpperUnit forLoop
  refine loopN_fst_of _ _ ?_ 0 (n - 0) A []
  intro j s
  simp only [colLoopT_fst]

/-- The buffer computed by the traced lower sweep is the one of the sweep. -/
theorem lowerSweepT_fst (pos : Nat → Nat) (n : Nat) (alpha : K) (x : Nat → S)
    (A : Nat → S) (lda : Nat) :
    (lowerSweepT pos n alpha x A lda).1 = herLowerUnit n alpha (fun i => x (pos i)) A lda := by
  unfold lowerSweepT herLowerUnit forLoop
  refine loopN_fst_of _ _ ?_ 0 (n - 0) A []
  intro j s
  simp only [colLoopT_fst]

theorem ofSweep_accUpdate (pos : Nat → Nat) (n lda i j : Nat) (hi : i < n) (hj : j < n)
    (a : Access) (ha : a ∈ accUpdate (pos i) (Aidx lda i j)) : Access.ofSweep pos n lda a := by
  simp only [accUpdate, List.mem_cons, List.mem_singleton, List.not_mem_nil, or_false] at ha
  rcases ha with e | e | e <;> subst e
  · exact ⟨i, hi, rfl⟩
  · exact ⟨i, j, hi, hj, rfl⟩
  · exact ⟨i, j, hi, hj, rfl⟩

theorem ofSweep_accDiag (pos : Nat → Nat) (n lda j : Nat) (hj : j < n)
    (a : Access) (ha : a ∈ accDiag (pos j) (Aidx lda j j)) : Access.ofSweep pos n lda a := by
  simp only [accDiag, List.mem_cons, List.mem_singleton, List.not_mem_nil, or_false] at ha
  rcases ha with e | e | e <;> subst e
  · exact ⟨j, j, hj, hj, rfl⟩
  · exact ⟨j, hj, rfl⟩
  · exact ⟨j, j, hj, hj, rfl⟩

/-- The column loop only adds accesses of the sweep to the log. -/
theorem colLoopT_log (pos : Nat → Nat) (n lda j : Nat) (x : Nat → S) (tmp : S) (lo t : Nat)
    (hj : j < n) (ht : lo + t ≤ n) (st : (Nat → S) × List Access)
    (h0 : ∀ a ∈ st.2, Access.ofSweep pos n lda a) :
    ∀ a ∈ (loopN (fun i (s : (Nat → S) × List Access) =>
        (Function.update s.1 (Aidx lda i j) (s.1 (Aidx lda i j) + x (pos i) * tmp),
          s.2 ++ accUpdate (pos i) (Aidx lda i j))) lo t st).2,
      Access.ofSweep pos n lda a := by
  refine loopN_inv (fun s : (Nat → S) × List Access => ∀ a ∈ s.2, Access.ofSweep pos n lda a)
    _ lo t st h0 ?_
  intro s hs b hb a ha
  simp only [List.mem_append] at ha
  rcases ha with ha | ha
  · exact hb a ha
  · exact ofSweep_accUpdate pos n lda (lo + s) j (by omega) hj a ha

/-- Every access of the traced upper sweep is an access of the sweep. -/
theorem upperSweepT_log (pos : Nat → Nat) (n : Nat) (alpha : K) (x : Nat → S)
    (A : Nat → S) (lda : Nat) :
    ∀ a ∈ (upperSweepT pos n alpha x A lda).2, Access.ofSweep pos n lda a := by
  unfold upperSweepT forLoop
  refine loopN_inv (fun s : (Nat → S) × List Access => ∀ a ∈ s.2, Access.ofSweep pos n lda a)
    _ 0 (n - 0) (A, []) (fun a ha => by simp at ha) ?_
  intro s hs b hb a ha
  simp only [Nat.zero_add, List.mem_append] at ha
  rcases ha with ha | ha
  · refine colLoopT_log pos n lda s x _ 0 (s - 0) (by omega) (by omega) _ ?_ a ha
    intro a2 ha2
    simp only [List.mem_append, List.mem_singleton] at ha2
    rcases ha2 with h | h
    · exact hb a2 h
    · subst h
      exact ⟨s, by omega, rfl⟩
  · exact ofSweep_accDiag pos n lda s (by omega) a ha

/-- Every access of the traced lower sweep is an access of the sweep. -/
theorem lowerSweepT_log (pos : Nat → Nat) (n : Nat) (alpha : K) (x : Nat → S)
    (A : Nat → S) (lda : Nat) :
    ∀ a ∈ (lowerSweepT pos n alpha x A lda).2, Access.ofSweep pos n lda a := by
  unfold lowerSweepT forLoop
  refine loopN_inv (fun s : (Nat → S) × List Access => ∀ a ∈ s.2, Access.ofSweep pos n lda a)
    _ 0 (n - 0) (A, []) (fun a ha => by simp at ha) ?_
  intro s hs b hb a ha
  simp only [Nat.zero_add] at ha
  refine colLoopT_log pos n lda s x _ (s + 1) (n - (s + 1)) (by omega) (by omega) _ ?_ a ha
  intro a2 ha2
  simp only [List.mem_append, List.mem_singleton] at ha2
  rcases ha2 with (h | h) | h
  · exact hb a2 h
  · subst h
    exact ⟨s, by omega, rfl⟩
  · exact ofSweep_accDiag pos n lda s (by omega) a2 h

end TracedSweepFacts

section TracedCall

variable {K S : Type} [ScalarOps K S] [Add S] [Mul S] [Add K] [Zero K] [DecidableEq K]

open ScalarOps

/-- The traced call has the outcome and the buffer of the call. -/
theorem herTraced_eq_her (layout : Layout) (uplo : Uplo) (n : Nat) (alpha : K) (x : Nat → S)
    (incx : Int) (A : Nat → S) (lda : Nat) :
    (herTraced layout uplo n alpha x incx A lda).1 = (her layout uplo n alpha x incx A lda).1 ∧
    (herTraced layout uplo n alpha x incx A lda).2.1
      = (her layout uplo n alpha x incx A lda).2 := by
  unfold her herTraced blas_error_if
  simp only [herUpperUnitT_eq, herLowerUnitT_eq, herUpperStridedT_eq, herLowerStridedT_eq,
    herUpperStrided_eq, herLowerStrided_eq, decide_eq_true_eq]
  split_ifs <;> simp [upperSweepT_fst, lowerSweepT_fst]

/-- On valid arguments outside the quick return, the traced call runs the traced
sweep of the effective triangle. -/
theorem herTraced_of_valid (layout : Layout) (uplo : Uplo) (n : Nat) (alpha : K)
    (x : Nat → S) (incx : Int) (A : Nat → S) (lda : Nat) (hl : layout ≠ Layout.Unknown)
    (hu : uplo ≠ Uplo.Unknown) (hn : n ≠ 0) (ha : alpha ≠ 0) (hinc : incx ≠ 0)
    (hlda : n ≤ lda) :
    ∃ pos : Nat → Nat,
      (pos = (fun k => k) ∧ incx = 1 ∨ pos = runIdx (herKx n incx) incx) ∧
      herTraced layout uplo n alpha x incx A lda
        = (Except.ok (),
            if effUplo layout uplo = Uplo.Upper then upperSweepT pos n alpha x A lda
            else lowerSweepT pos n alpha x A lda) := by
  have h1 : ¬ lda < n := by omega
  unfold herTraced effUplo
  simp only [herUpperUnitT_eq, herLowerUnitT_eq, herUpperStridedT_eq, herLowerStridedT_eq]
  by_cases hone : incx = 1
  · refine ⟨fun k => k, Or.inl ⟨rfl, hone⟩, ?_⟩
    cases layout <;> cases uplo <;> simp [hinc, h1, hn, ha, hone] at hl hu ⊢
  · refine ⟨runIdx (herKx n incx) incx, Or.inr rfl, ?_⟩
    cases layout <;> cases uplo <;> simp [hinc, h1, hn, ha, hone] at hl hu ⊢

theorem xidx_le (n : Nat) (incx : Int) (k : Nat) (hk : k < n) :
    xidx n incx k ≤ (n - 1) * incx.natAbs := by
  unfold xidx
  split
  · exact Nat.mul_le_mul_right _ (by omega)
  · exact Nat.mul_le_mul_right _ (by omega)

/-- C17: for `n ≥ 1`, `alpha ≠ 0`, `incx ≠ 0` of either sign and `lda ≥ n`
(addressable arrays), the traced call returns normally with the buffer of the
call, and every access it makes is in bounds for `x` of length
`(n-1)*|incx| + 1` and `A` of length `lda*n`; moreover every read of `x` is at
the position `xidx n incx k` of a logical element `k < n` (the running indices
are never used in a wrapped state) and every access of `A` is at an index
`A(r, c)` with `r, c < n`. -/
theorem her_index_safety (layout : Layout) (uplo : Uplo) (n : Nat) (alpha : K)
    (x : Nat → S) (incx : Int) (A : Nat → S) (lda : Nat) (hl : layout ≠ Layout.Unknown)
    (hu : uplo ≠ Uplo.Unknown) (hn : 1 ≤ n) (ha : alpha ≠ 0) (hinc : incx ≠ 0)
    (hlda : n ≤ lda) (hA : lda * n < SIZE_MOD) (hx : (n - 1) * incx.natAbs < SIZE_MOD) :
    ∃ (A1 : Nat → S) (log : List Access),
      herTraced layout uplo n alpha x incx A lda = (Except.ok (), (A1, log)) ∧
      her layout uplo n alpha x incx A lda = (Except.ok (), A1) ∧
      ∀ a ∈ log, Access.inBounds ((n - 1) * incx.natAbs + 1) (lda * n) a ∧
        Access.ofSweep (xidx n incx) n lda a := by
  obtain ⟨pos, hpos, ht⟩ :=
    herTraced_of_valid layout uplo n alpha x incx A lda hl hu (by omega) ha hinc hlda
  have hposk : ∀ k, k < n → pos k = xidx n incx k := by
    intro k hk
    rcases hpos with ⟨e, h1⟩ | e
    · subst e
      subst h1
      simp [xidx]
    · rw [e]
      exact runIdx_herKx n incx k hk hx
  have htie := herTraced_eq_her layout uplo n alpha x incx A lda
  have hlog : ∀ a ∈ (herTraced layout uplo n alpha x incx A lda).2.2,
      Access.ofSweep pos n lda a := by
    rw [ht]
    dsimp only
    split
    · exact upperSweepT_log pos n alpha x A lda
    · exact lowerSweepT_log pos n alpha x A lda
  have hok : (her layout uplo n alpha x incx A lda).1 = Except.ok () := by
    rw [← htie.1, ht]
  refine ⟨(herTraced layout uplo n alpha x incx A lda).2.1,
    (herTraced layout uplo n alpha x incx A lda).2.2, ?_, ?_, ?_⟩
  · rw [ht]
  · rw [htie.2, ← hok]
  · intro a ha
    have hs := hlog a ha
    cases a with
    | readX i =>
      obtain ⟨k, hk, e⟩ := hs
      rw [hposk k hk] at e
      refine ⟨?_, ⟨k, hk, e⟩⟩
      show i < (n - 1) * incx.natAbs + 1
      have := xidx_le n incx k hk
      omega
    | readA i =>
      obtain ⟨r, c, hr, hc, e⟩ := hs
      refine ⟨?_, ⟨r, c, hr, hc, e⟩⟩
      show i < lda * n
      rw [e, Aidx_eq_of_valid hlda hA hr hc]
      exact idx_lt (lt_of_lt_of_le hr hlda) hc
    | writeA i =>
      obtain ⟨r, c, hr, hc, e⟩ := hs
      refine ⟨?_, ⟨r, c, hr, hc, e⟩⟩
      show i < lda * n
      rw [e, Aidx_eq_of_valid hlda hA hr hc]
      exact idx_lt (lt_of_lt_of_le hr hlda) hc

end TracedCall

/-- Witness of C17: `ColMajor`, `Lower`, `n = 2`, stride `-1`, `lda = 2`: the
accesses in program order. -/
theorem her_index_safety_witness :
    ∃ (A1 : Nat → Cplx Int) (log : List Access),
      herTraced Layout.ColMajor Uplo.Lower 2 (1 : Int) vecOneI (-1) zeroBuf 2
        = (Except.ok (), (A1, log)) ∧
      log = [Access.readX 1, Access.readA 0, Access.readX 1, Access.writeA 0,
        Access.readX 0, Access.readA 1, Access.writeA 1,
        Access.readX 0, Access.readA 3, Access.readX 0, Access.writeA 3] ∧
      ∀ a ∈ log, Access.inBounds 2 4 a := by
  obtain ⟨A1, log, h, _, hall⟩ := her_index_safety Layout.ColMajor Uplo.Lower 2 (1 : Int)
    vecOneI (-1) zeroBuf 2 (by decide) (by decide) (by decide) (by decide) (by decide)
    (by decide) (by decide) (by decide)
  refine ⟨A1, log, h, ?_, fun a ha => (hall a ha).1⟩
  have e : log = (herTraced Layout.ColMajor Uplo.Lower 2 (1 : Int) vecOneI (-1) zeroBuf 2).2.2 := by
    rw [h]
  rw [e]
  decide

end Blas
